import Mathlib

/-!
The Morse-code LED driver `leddy.c`.

A shallow embedding of the driver's text-to-pulse pipeline and of its two
user-facing entry points (`leddy_write`, `set_interval`).

Conventions of the embedding.

* A `char` is the natural number of its `unsigned char` value (`0 .. 255`).
* A C string / buffer seen through a cursor is the list of the bytes from the
  cursor on.  A buffer is NUL-terminated: reading at the end of the list yields
  the terminator `0` (this is `kern_buf[size] = 0` of `leddy_write`).
* `unsigned int` arithmetic is arithmetic on `Nat` reduced modulo `2 ^ 32`.
* Hardware and timing effects are recorded, in program order, as a list of
  `Event`s: register writes (`writel`) and sleeps (`msleep`).
* Reading a table outside its bounds has no defined result: `none`.
-/

set_option maxRecDepth 100000

namespace Leddy

/-! ## `<linux/ctype.h>` and `lib/ctype.c` of the Linux kernel -/

/-- Flag `_U` of `<linux/ctype.h>`: upper-case letter. -/
def _U : Nat := 0x01
/-- Flag `_L` of `<linux/ctype.h>`: lower-case letter. -/
def _L : Nat := 0x02
/-- Flag `_D` of `<linux/ctype.h>`: digit. -/
def _D : Nat := 0x04
/-- Flag `_C` of `<linux/ctype.h>`: control character. -/
def _C : Nat := 0x08
/-- Flag `_P` of `<linux/ctype.h>`: punctuation. -/
def _P : Nat := 0x10
/-- Flag `_S` of `<linux/ctype.h>`: white space. -/
def _S : Nat := 0x20
/-- Flag `_X` of `<linux/ctype.h>`: hexadecimal digit. -/
def _X : Nat := 0x40
/-- Flag `_SP` of `<linux/ctype.h>`: hard space. -/
def _SP : Nat := 0x80

/-- The kernel's character-class table `_ctype[256]` (`lib/ctype.c`), one row
of the source per line.  The upper half classifies ISO 8859-1 letters. -/
def _ctype : List Nat :=
  [_C,_C,_C,_C,_C,_C,_C,_C,                                     -- 0-7
   _C,_C|||_S,_C|||_S,_C|||_S,_C|||_S,_C|||_S,_C,_C,            -- 8-15
   _C,_C,_C,_C,_C,_C,_C,_C,                                     -- 16-23
   _C,_C,_C,_C,_C,_C,_C,_C,                                     -- 24-31
   _S|||_SP,_P,_P,_P,_P,_P,_P,_P,                               -- 32-39
   _P,_P,_P,_P,_P,_P,_P,_P,                                     -- 40-47
   _D,_D,_D,_D,_D,_D,_D,_D,                                     -- 48-55
   _D,_D,_P,_P,_P,_P,_P,_P,                                     -- 56-63
   _P,_U|||_X,_U|||_X,_U|||_X,_U|||_X,_U|||_X,_U|||_X,_U,       -- 64-71
   _U,_U,_U,_U,_U,_U,_U,_U,                                     -- 72-79
   _U,_U,_U,_U,_U,_U,_U,_U,                                     -- 80-87
   _U,_U,_U,_P,_P,_P,_P,_P,                                     -- 88-95
   _P,_L|||_X,_L|||_X,_L|||_X,_L|||_X,_L|||_X,_L|||_X,_L,       -- 96-103
   _L,_L,_L,_L,_L,_L,_L,_L,                                     -- 104-111
   _L,_L,_L,_L,_L,_L,_L,_L,                                     -- 112-119
   _L,_L,_L,_P,_P,_P,_P,_C,                                     -- 120-127
   0,0,0,0,0,0,0,0,0,0,0,0,0,0,0,0,                             -- 128-143
   0,0,0,0,0,0,0,0,0,0,0,0,0,0,0,0,                             -- 144-159
   _S|||_SP,_P,_P,_P,_P,_P,_P,_P,_P,_P,_P,_P,_P,_P,_P,_P,       -- 160-175
   _P,_P,_P,_P,_P,_P,_P,_P,_P,_P,_P,_P,_P,_P,_P,_P,             -- 176-191
   _U,_U,_U,_U,_U,_U,_U,_U,_U,_U,_U,_U,_U,_U,_U,_U,             -- 192-207
   _U,_U,_U,_U,_U,_U,_U,_P,_U,_U,_U,_U,_U,_U,_U,_L,             -- 208-223
   _L,_L,_L,_L,_L,_L,_L,_L,_L,_L,_L,_L,_L,_L,_L,_L,             -- 224-239
   _L,_L,_L,_L,_L,_L,_L,_P,_L,_L,_L,_L,_L,_L,_L,_L]             -- 240-255

/-- `__ismask(x)`, that is `_ctype[(int)(unsigned char)(x)]`. -/
def __ismask (x : Nat) : Nat := _ctype.getD (x % 256) 0

/-- `isalnum(c)`: `(__ismask(c) & (_U|_L|_D)) != 0`. -/
def isalnum (c : Nat) : Bool := (__ismask c &&& (_U ||| _L ||| _D)) != 0

/-- `isalpha(c)`: `(__ismask(c) & (_U|_L)) != 0`. -/
def isalpha (c : Nat) : Bool := (__ismask c &&& (_U ||| _L)) != 0

/-- `isdigit(c)`: `(__ismask(c) & _D) != 0`. -/
def isdigit (c : Nat) : Bool := (__ismask c &&& _D) != 0

/-- `isupper(c)`: `(__ismask(c) & _U) != 0`. -/
def isupper (c : Nat) : Bool := (__ismask c &&& _U) != 0

/-- `tolower(c)`, the kernel's `__tolower`: on an `unsigned char`,
`if (isupper(c)) c -= 'A'-'a';`. -/
def tolower (c : Nat) : Nat :=
  if isupper c then (c % 256 + 32) % 256 else c % 256

/-! ## The Morse tables -/

/-- The table `az` of the source: the codes of `a .. z`. -/
def az : List String :=
  [".-", "-...", "-.-.", "-..", ".", "..-.",
   "--.", "....", "..", ".---", "-.-", ".-..",
   "--", "-.", "---", ".--.", "--.-", ".-.",
   "...", "-", "..-", "...-", ".--", "-..-",
   "-.--", "--.."]

/-- The table `nbr` of the source: the codes of `0 .. 9`. -/
def nbr : List String :=
  ["-----", ".----", "..---",
   "...--", "....-", ".....", "-....", "--...",
   "---..", "----."]

/-- The function `get_code`.  The index expressions are computed in `int`, and a
read outside a table has no defined result. -/
def get_code (c : Nat) : Option String :=
  if isalpha c then
    (if 97 ≤ tolower c then az.get? (tolower c - 97) else none)
  else if isdigit c then
    (if 48 ≤ c then nbr.get? (c - 48) else none)
  else
    some ""

/-! ## Registers, events, GPIO -/

/-- The registers of `struct gpio_registers_map`, by array and index. -/
inductive Reg where
  | GPFSEL (i : Nat)
  | GPSET (i : Nat)
  | GPCLR (i : Nat)
  deriving DecidableEq, Repr

/-- One observable effect of the driver, in program order. -/
inductive Event where
  | readl (reg : Reg)
  | writel (value : Nat) (reg : Reg)
  | msleep (msecs : Nat)
  deriving DecidableEq, Repr

/-- The function `set_gpio_value`: one `writel` of `1 << (gpio % 32)` to
`gpio_registers->GPSET` (value true) or `gpio_registers->GPCLR` (value false);
either array decays to the address of its element 0. -/
def set_gpio_value (gpio : Nat) (val : Bool) : List Event :=
  if val then
    [Event.writel ((1 <<< (gpio % 32)) % 2 ^ 32) (Reg.GPSET 0)]
  else
    [Event.writel ((1 <<< (gpio % 32)) % 2 ^ 32) (Reg.GPCLR 0)]

/-! ## Signals and pauses

`interval` is the value of the global `unsigned int interval` read by the call. -/

/-- The function `morse_short_signal`. -/
def morse_short_signal (interval gpio : Nat) : List Event :=
  set_gpio_value gpio true ++ [Event.msleep interval] ++ set_gpio_value gpio false

/-- The function `morse_long_signal`: the sleep is `3 * interval` in
`unsigned int`. -/
def morse_long_signal (interval gpio : Nat) : List Event :=
  set_gpio_value gpio true ++ [Event.msleep ((3 * interval) % 2 ^ 32)] ++
    set_gpio_value gpio false

/-- The function `morse_pause`: `msleep(times * interval)` in `unsigned int`. -/
def morse_pause (interval times : Nat) : List Event :=
  [Event.msleep ((times * interval) % 2 ^ 32)]

/-- The body of the `for` loop of `morse_char` for one character `s` of the
code string. -/
def morse_symbol (interval gpio : Nat) (s : Char) : List Event :=
  (if s = '.' then morse_short_signal interval gpio
   else morse_long_signal interval gpio) ++ morse_pause interval 1

/-- The function `morse_char`: the `for` loop over the code string, then
`morse_pause(2)`.  No result when `get_code` reads outside its table. -/
def morse_char (interval gpio c : Nat) : Option (List Event) :=
  match get_code c with
  | none => none
  | some morse =>
    some ((morse.data.map (morse_symbol interval gpio)).flatten ++ morse_pause interval 2)

/-! ## `morse_code`

`morse_code` acts only through calls of `morse_char` and `morse_pause`, and its
control flow does not depend on what they do; the embedding first lists those
calls, in order, and then runs them. -/

/-- A call made by `morse_code`. -/
inductive Call where
  | morse_char (gpio : Nat) (c : Nat)
  | morse_pause (times : Nat)
  deriving DecidableEq, Repr

/-- The byte under the cursor, `*buf`. -/
def peek (buf : List Nat) : Nat := buf.headD 0

/-- Both skip loops of `morse_code`:
`while (*buf != 0 && !isalnum(*(buf++))) ;`
returning the cursor after the loop.  The increment is part of the condition:
it also happens on the evaluation that ends the loop on an alphanumeric byte. -/
def morse_code_skip : List Nat → List Nat
  | [] => []
  | c :: rest =>
    if c != 0 then
      (if !isalnum c then morse_code_skip rest else rest)
    else c :: rest

/-- The inner loop of `morse_code`:
`while (*buf != 0 && isalnum(*buf)) { morse_char(gpio, *buf); buf++; }`
returning the calls made and the cursor after the loop. -/
def morse_code_word (gpio : Nat) : List Nat → List Call × List Nat
  | [] => ([], [])
  | c :: rest =>
    if c != 0 && isalnum c then
      (Call.morse_char gpio c :: (morse_code_word gpio rest).1,
        (morse_code_word gpio rest).2)
    else ([], c :: rest)

/-- The outer loop `while (*buf != 0) { ... }` of `morse_code`, run for at most
`fuel` iterations; `none` when the fuel runs out before the loop ends. -/
def morse_code_loop (gpio : Nat) : Nat → List Nat → Option (List Call)
  | 0, buf => if peek buf != 0 then none else some []
  | fuel + 1, buf =>
    if peek buf != 0 then
      match morse_code_loop gpio fuel (morse_code_skip (morse_code_word gpio buf).2) with
      | none => none
      | some later => some ((morse_code_word gpio buf).1 ++ Call.morse_pause 2 :: later)
    else some []

/-- The function `morse_code`, as the list of the calls it makes.  Every
iteration of the outer loop consumes a byte, so `buf.length` iterations are
enough (`morse_code_loop_fuel`). -/
def morse_code (gpio : Nat) (buf : List Nat) (start : Bool) : Option (List Call) :=
  if !start && !isalnum (peek buf) then
    match morse_code_loop gpio buf.length (morse_code_skip buf) with
    | none => none
    | some later => some (Call.morse_pause 5 :: later)
  else morse_code_loop gpio buf.length buf

/-- One run followed by another: the two records one after the other, and no
result as soon as one of the runs has none. -/
def seq_trace {α : Type} : Option (List α) → Option (List α) → Option (List α)
  | some t1, some t2 => some (t1 ++ t2)
  | _, _ => none

/-- What one call does. -/
def Call.run (interval : Nat) : Call → Option (List Event)
  | Call.morse_char gpio c => Leddy.morse_char interval gpio c
  | Call.morse_pause times => some (Leddy.morse_pause interval times)

/-- What a sequence of calls does: the effects of the calls, one after the
other; no result as soon as one call has none. -/
def run_calls (interval : Nat) : List Call → Option (List Event)
  | [] => some []
  | c :: cs => seq_trace (c.run interval) (run_calls interval cs)

/-- The effects of `morse_code(gpio, buf, start)`. -/
def morse_code_trace (interval gpio : Nat) (buf : List Nat) (start : Bool) :
    Option (List Event) :=
  match morse_code gpio buf start with
  | none => none
  | some calls => run_calls interval calls

/-- The bytes of a string literal (without the terminator). -/
def cstr (s : String) : List Nat := s.data.map Char.toNat

/-- The ASCII letters and decimal digits, by their byte values. -/
def is_letter_or_digit (c : Nat) : Bool :=
  (48 ≤ c && c ≤ 57) || (65 ≤ c && c ≤ 90) || (97 ≤ c && c ≤ 122)

/-! ## `leddy_write` -/

/-- The constant `WRITE_BUF_SIZE`. -/
def WRITE_BUF_SIZE : Nat := 63

/-- The constant `LED_GPIO_PIN`. -/
def LED_GPIO_PIN : Nat := 18

/-- The kernel primitive `copy_from_user(to, from, n)`, over a user address
space `umem` that maps the offset of a byte from the user pointer `buf` to the
byte, or to `none` where the access faults.  `some bytes`: all `n` bytes were
copied (the primitive returns 0); `none`: it returns a non-zero count. -/
def copy_from_user (umem : Nat → Option Nat) (src : Nat) : Nat → Option (List Nat)
  | 0 => some []
  | n + 1 =>
    match umem src, copy_from_user umem (src + 1) n with
    | some b, some bs => some (b :: bs)
    | _, _ => none

/-- The loop `while (buf_offset < count) { ... }` of `leddy_write` followed by
`return count`, from the state `buf_offset`, run for at most `fuel` iterations.
The result is the value returned and the `morse_code` invocations made, each as
the buffer passed (`kern_buf` up to and including `kern_buf[size] = 0`) and the
flag `buf_offset == 0`; `none` when the fuel runs out. -/
def leddy_write_loop (umem : Nat → Option Nat) (count : Nat) :
    Nat → Nat → Option (Int × List (List Nat × Bool))
  | 0, buf_offset => if buf_offset < count then none else some ((count : Int), [])
  | fuel + 1, buf_offset =>
    if buf_offset < count then
      match copy_from_user umem buf_offset
          (if count - buf_offset < WRITE_BUF_SIZE then count - buf_offset
           else WRITE_BUF_SIZE) with
      | none => some ((buf_offset : Int), [])
      | some kern_buf =>
        match leddy_write_loop umem count fuel
            (buf_offset +
              (if count - buf_offset < WRITE_BUF_SIZE then count - buf_offset
               else WRITE_BUF_SIZE)) with
        | none => none
        | some (ret, later) => some (ret, (kern_buf ++ [0], buf_offset == 0) :: later)
    else some ((count : Int), [])

/-- The function `leddy_write`: every iteration advances `buf_offset` by at
least one byte, so `count` iterations are enough (`leddy_write_loop_total`). -/
def leddy_write (umem : Nat → Option Nat) (count : Nat) :
    Option (Int × List (List Nat × Bool)) :=
  leddy_write_loop umem count count 0

/-- The calls made by a sequence of `morse_code` invocations on
`LED_GPIO_PIN`. -/
def invocation_calls : List (List Nat × Bool) → Option (List Call)
  | [] => some []
  | (kern_buf, start) :: later =>
    seq_trace (morse_code LED_GPIO_PIN kern_buf start) (invocation_calls later)

/-! ## `set_interval` -/

/-- The error number `EINVAL`. -/
def EINVAL : Int := 22

/-- The function `set_interval`, from the current `interval`.  `parsed` is the
outcome of `kstrtouint(buf, 10, &new_value)`: `none` when it returns a negative
value, `some v` when it returns 0 and stores `v`.  The result is the value
returned and the new `interval`. -/
def set_interval (interval : Nat) (parsed : Option Nat) (count : Nat) : Int × Nat :=
  match parsed with
  | none => (-EINVAL, interval)
  | some new_value =>
    if new_value < 100 then (-EINVAL, interval)
    else ((count : Int), new_value)

/-! ## The International Morse code -/

/-- The International Morse code (ITU-R M.1677-1) of a letter or digit, given
by its upper-case character; a dot is `.` and a dash is `-`. -/
def international_morse : Char → Option String
  | 'A' => some ".-"
  | 'B' => some "-..."
  | 'C' => some "-.-."
  | 'D' => some "-.."
  | 'E' => some "."
  | 'F' => some "..-."
  | 'G' => some "--."
  | 'H' => some "...."
  | 'I' => some ".."
  | 'J' => some ".---"
  | 'K' => some "-.-"
  | 'L' => some ".-.."
  | 'M' => some "--"
  | 'N' => some "-."
  | 'O' => some "---"
  | 'P' => some ".--."
  | 'Q' => some "--.-"
  | 'R' => some ".-."
  | 'S' => some "..."
  | 'T' => some "-"
  | 'U' => some "..-"
  | 'V' => some "...-"
  | 'W' => some ".--"
  | 'X' => some "-..-"
  | 'Y' => some "-.--"
  | 'Z' => some "--.."
  | '0' => some "-----"
  | '1' => some ".----"
  | '2' => some "..---"
  | '3' => some "...--"
  | '4' => some "....-"
  | '5' => some "....."
  | '6' => some "-...."
  | '7' => some "--..."
  | '8' => some "---.."
  | '9' => some "----."
  | _ => none

/-! ## Vocabulary of the properties -/

/-- The upper-case character of a byte: a lower-case ASCII letter is moved to
its upper-case letter, any other byte is kept. -/
def upper_char (c : Nat) : Char :=
  Char.ofNat (if 97 ≤ c ∧ c ≤ 122 then c - 32 else c)

/-- The total time slept in a trace. -/
def total_sleep : List Event → Nat
  | [] => 0
  | Event.msleep ms :: t => ms + total_sleep t
  | _ :: t => total_sleep t

/-- The time a symbol holds the pin high, as the specification has it: one
unit for a dot, three for a dash. -/
def symbol_duration (u : Nat) (s : Char) : Nat := if s = '.' then u else 3 * u

/-- The pulse of one symbol as the specification times it: pin high, hold,
pin low, then a gap of one unit. -/
def symbol_pulse (u gpio : Nat) (s : Char) : List Event :=
  set_gpio_value gpio true ++ [Event.msleep (symbol_duration u s)] ++
    set_gpio_value gpio false ++ [Event.msleep u]

/-- The part of a trace after its `n`-th write to a clear register. -/
def after_low : Nat → List Event → List Event
  | 0, t => t
  | _ + 1, [] => []
  | n + 1, Event.writel _ (Reg.GPCLR _) :: t => after_low n t
  | n + 1, _ :: t => after_low (n + 1) t

/-- The sleeps a trace starts with, up to its first register access. -/
def leading_sleeps : List Event → List Nat
  | Event.msleep ms :: t => ms :: leading_sleeps t
  | _ => []

/-- The characters passed to `morse_char` by a sequence of calls, in order. -/
def transmitted : List Call → List Nat
  | [] => []
  | Call.morse_char _ c :: cs => c :: transmitted cs
  | Call.morse_pause _ :: cs => transmitted cs

/-- The `n` bytes of user memory from offset `src` on (0 where unreadable). -/
def user_bytes (umem : Nat → Option Nat) (src n : Nat) : List Nat :=
  (List.range' src n).map (fun i => (umem i).getD 0)

/-- The user memory of the examples: 100 readable bytes `A`, then a fault. -/
def sample_umem (i : Nat) : Option Nat := if i < 100 then some 65 else none

/-! ## `set_gpio_function` -/

/-- The constant `GPIO_FSEL_OUTPUT`. -/
def GPIO_FSEL_OUTPUT : Nat := 0b001

/-- The content of the register block after a `writel(value, reg)` on a plain
read/write register. -/
def store (regs : Reg → Nat) (reg : Reg) (value : Nat) : Reg → Nat :=
  fun r => if r = reg then value else regs r

/-- The function `set_gpio_function`, from the register contents `regs`: the
new contents and the accesses made.  `fsel` stands for the 32-bit pattern of the
`int` argument; `~mask` on an `unsigned int` is `mask ^ 0xFFFFFFFF`. -/
def set_gpio_function (regs : Reg → Nat) (gpio fsel : Nat) : (Reg → Nat) × List Event :=
  let register_index := gpio / 10
  let offset := (gpio % 10) * 3
  let old_val := regs (Reg.GPFSEL register_index) % 2 ^ 32
  let mask := (0b111 <<< offset) % 2 ^ 32
  let old_val_masked := old_val &&& (mask ^^^ 0xFFFFFFFF)
  let fsel_val := ((fsel <<< offset) % 2 ^ 32) &&& mask
  (store regs (Reg.GPFSEL register_index) (old_val_masked ||| fsel_val),
    [Event.readl (Reg.GPFSEL register_index),
     Event.writel (old_val_masked ||| fsel_val) (Reg.GPFSEL register_index)])

/-- Register contents for the examples: every register holds `0xFFFFFFFF`. -/
def sample_regs : Reg → Nat := fun _ => 0xFFFFFFFF

/-- The pieces into which the specification cuts a write of `count` bytes:
consecutive pieces of 63 bytes, the last one of what remains, each followed by
a NUL and flagged as the first piece or not. -/
def write_pieces (umem : Nat → Option Nat) (count : Nat) : List (List Nat × Bool) :=
  (List.range ((count + 62) / 63)).map
    (fun q => (user_bytes umem (63 * q) (min 63 (count - 63 * q)) ++ [0], q == 0))

/-- What a trace has done to the LED so far: the pin is low; the pin has just
been driven high and the hold has not been slept yet; the hold has been slept
and the pin-low write is due. -/
inductive Phase where
  | low
  | high
  | held
  deriving DecidableEq, Repr

/-- One event of a trace in which the LED is never left on: with the pin low, a
sleep (a gap) or the pin-high write of `gpio`; right after the pin-high write,
one sleep; after that sleep, the pin-low write of `gpio`.  Anything else is a
violation, `none`. -/
def led_step (gpio : Nat) (p : Option Phase) (e : Event) : Option Phase :=
  match p, e with
  | some Phase.low, Event.msleep _ => some Phase.low
  | some Phase.low, Event.writel v r =>
    if [Event.writel v r] = set_gpio_value gpio true then some Phase.high else none
  | some Phase.high, Event.msleep _ => some Phase.held
  | some Phase.held, Event.writel v r =>
    if [Event.writel v r] = set_gpio_value gpio false then some Phase.low else none
  | _, _ => none

/-- The phase a trace ends in when started in phase `p`, or `none` when the
trace has a violation. -/
def led_run (gpio : Nat) (p : Phase) (t : List Event) : Option Phase :=
  t.foldl (led_step gpio) (some p)

/-! # Properties -/

/-! ## Termination of the loops -/

theorem morse_code_skip_length (buf : List Nat) :
    (morse_code_skip buf).length ≤ buf.length := by
  induction buf with
  | nil => simp [morse_code_skip]
  | cons c rest ih =>
    simp only [morse_code_skip]
    split_ifs
    all_goals simp
    all_goals omega

theorem morse_code_word_length (gpio : Nat) (buf : List Nat) :
    (morse_code_word gpio buf).2.length ≤ buf.length := by
  induction buf with
  | nil => simp [morse_code_word]
  | cons c rest ih =>
    simp only [morse_code_word]
    split_ifs
    all_goals simp
    all_goals omega

/-- An iteration of the outer loop moves the cursor forward. -/
theorem morse_code_progress (gpio : Nat) (buf : List Nat) (h : peek buf ≠ 0) :
    (morse_code_skip (morse_code_word gpio buf).2).length < buf.length := by
  cases buf with
  | nil => simp [peek] at h
  | cons c rest =>
    have hc : c ≠ 0 := by simpa [peek] using h
    by_cases ha : isalnum c = true
    · have h1 := morse_code_skip_length (morse_code_word gpio rest).2
      have h2 := morse_code_word_length gpio rest
      simp [morse_code_word, hc, ha]
      omega
    · have h1 := morse_code_skip_length rest
      simp [morse_code_word, morse_code_skip, hc, ha]
      omega

/-- With one unit of fuel per byte the outer loop runs to its end. -/
theorem morse_code_loop_total (gpio : Nat) :
    ∀ (fuel : Nat) (buf : List Nat), buf.length ≤ fuel →
      ∃ calls, morse_code_loop gpio fuel buf = some calls := by
  intro fuel
  induction fuel with
  | zero =>
    intro buf h
    have : buf = [] := List.length_eq_zero.mp (Nat.le_zero.mp h)
    subst this
    exact ⟨[], by simp [morse_code_loop, peek]⟩
  | succ fuel ih =>
    intro buf h
    by_cases hp : peek buf = 0
    · exact ⟨[], by simp [morse_code_loop, hp]⟩
    · have hlt := morse_code_progress gpio buf hp
      obtain ⟨later, hl⟩ := ih (morse_code_skip (morse_code_word gpio buf).2) (by omega)
      exact ⟨(morse_code_word gpio buf).1 ++ Call.morse_pause 2 :: later,
        by simp [morse_code_loop, hp, hl]⟩

/-- More fuel does not change a result. -/
theorem morse_code_loop_mono (gpio : Nat) :
    ∀ (fuel : Nat) (buf : List Nat) (calls : List Call),
      morse_code_loop gpio fuel buf = some calls →
      morse_code_loop gpio (fuel + 1) buf = some calls := by
  intro fuel
  induction fuel with
  | zero =>
    intro buf calls h
    by_cases hp : peek buf = 0
    · simpa [morse_code_loop, hp] using h
    · simp [morse_code_loop, hp] at h
  | succ fuel ih =>
    intro buf calls h
    by_cases hp : peek buf = 0
    · simpa [morse_code_loop, hp] using h
    · rw [morse_code_loop] at h
      rw [morse_code_loop]
      simp only [hp, bne_iff_ne, ne_eq, not_false_eq_true, if_true] at h ⊢
      cases hl : morse_code_loop gpio fuel (morse_code_skip (morse_code_word gpio buf).2) with
      | none => simp [hl] at h
      | some later =>
        rw [ih _ _ hl]
        simpa [hl] using h

theorem morse_code_loop_mono_le (gpio : Nat) (buf : List Nat) (calls : List Call) :
    ∀ (fuel extra : Nat), morse_code_loop gpio fuel buf = some calls →
      morse_code_loop gpio (fuel + extra) buf = some calls := by
  intro fuel extra h
  induction extra with
  | zero => simpa using h
  | succ e ih => exact morse_code_loop_mono gpio (fuel + e) buf calls ih

/-- Any fuel of at least one unit per byte gives the result of `morse_code`'s
own choice of fuel. -/
theorem morse_code_loop_fuel (gpio fuel : Nat) (buf : List Nat) (h : buf.length ≤ fuel) :
    morse_code_loop gpio fuel buf = morse_code_loop gpio buf.length buf := by
  obtain ⟨calls, hc⟩ := morse_code_loop_total gpio buf.length buf (Nat.le_refl _)
  have := morse_code_loop_mono_le gpio buf calls buf.length (fuel - buf.length) hc
  rw [hc, ← this]
  congr 1
  omega

/-! ## The code table -/

theorem get_code_international_aux (c : Nat) (h : is_letter_or_digit c = true) :
    (get_code c).isSome = true ∧ get_code c ≠ some "" := by
  have hb : c < 123 := by
    simp only [is_letter_or_digit, Bool.or_eq_true, Bool.and_eq_true, decide_eq_true_eq] at h
    omega
  have all : ∀ c, c < 123 → is_letter_or_digit c = true →
      (get_code c).isSome = true ∧ get_code c ≠ some "" := by decide
  exact all c hb h

/-- C5: for every ASCII letter, upper or lower case, and every decimal digit,
`get_code` returns the International Morse code of the character (a code that
is not empty), and the code of an upper-case letter is the code of the
corresponding lower-case letter. -/
theorem get_code_international (c : Nat) (h : is_letter_or_digit c = true) :
    get_code c = international_morse (upper_char c) ∧
    (get_code c).isSome = true ∧ get_code c ≠ some "" ∧
    (65 ≤ c ∧ c ≤ 90 → get_code c = get_code (c + 32)) := by
  have hb : c < 123 := by
    simp only [is_letter_or_digit, Bool.or_eq_true, Bool.and_eq_true, decide_eq_true_eq] at h
    omega
  have all : ∀ c, c < 123 → is_letter_or_digit c = true →
      get_code c = international_morse (upper_char c) ∧
      (get_code c).isSome = true ∧ get_code c ≠ some "" ∧
      (65 ≤ c ∧ c ≤ 90 → get_code c = get_code (c + 32)) := by decide
  exact all c hb h

/-- C5 at `A`, `a` and `0`: dot-dash for the letter in either case, five dashes
for the digit. -/
theorem get_code_international_witness :
    (get_code 65 = international_morse (upper_char 65) ∧
      (get_code 65).isSome = true ∧ get_code 65 ≠ some "" ∧
      (65 ≤ 65 ∧ 65 ≤ 90 → get_code 65 = get_code (65 + 32))) ∧
    get_code 65 = some ".-" ∧ get_code 97 = some ".-" ∧ get_code 48 = some "-----" :=
  ⟨get_code_international 65 (by decide), by decide, by decide, by decide⟩

/-- C6, at the failing input: for the byte `0xC0` the kernel's `isalpha` holds
and `tolower` gives `0xE0`, so `get_code` reads `az[127]`, outside the 26
entries of the table, and has no defined result; the same happens for every
byte from `0xC0` to `0xFF` other than `0xD7` and `0xF7`, while every other
byte that is not an ASCII letter or digit gets the empty code. -/
theorem get_code_latin1_out_of_bounds :
    isalpha 0xC0 = true ∧ tolower 0xC0 - 97 = 127 ∧ az.length = 26 ∧
    get_code 0xC0 = none ∧
    (∀ c, c < 256 → is_letter_or_digit c = false →
      (get_code c = none ↔ (0xC0 ≤ c ∧ c ≠ 0xD7 ∧ c ≠ 0xF7)) ∧
      (get_code c ≠ none → get_code c = some "")) := by
  refine ⟨by decide, by decide, by decide, by decide, by decide⟩

/-! ## The timing of a character -/

theorem total_sleep_append (a b : List Event) :
    total_sleep (a ++ b) = total_sleep a + total_sleep b := by
  induction a with
  | nil => simp [total_sleep]
  | cons e t ih =>
    cases e with
    | readl r => simpa [total_sleep] using ih
    | writel v r => simpa [total_sleep] using ih
    | msleep ms => simp [total_sleep, ih]; omega

theorem total_sleep_set_gpio_value (gpio : Nat) (val : Bool) :
    total_sleep (set_gpio_value gpio val) = 0 := by
  cases val <;> simp [set_gpio_value, total_sleep]

/-- Without wrap-around the loop body of `morse_char` is the pulse of the
specification. -/
theorem morse_symbol_eq_pulse (interval gpio : Nat) (s : Char)
    (hu : 3 * interval < 2 ^ 32) :
    morse_symbol interval gpio s = symbol_pulse interval gpio s := by
  by_cases hs : s = '.'
  · simp [morse_symbol, symbol_pulse, symbol_duration, morse_short_signal, morse_pause, hs]
    omega
  · simp [morse_symbol, symbol_pulse, symbol_duration, morse_long_signal, morse_pause, hs]
    omega

theorem total_sleep_pulses (u gpio : Nat) (syms : List Char) :
    total_sleep ((syms.map (symbol_pulse u gpio)).flatten) =
      (syms.map (symbol_duration u)).sum + syms.length * u := by
  induction syms with
  | nil => simp [total_sleep]
  | cons s t ih =>
    simp only [List.map_cons, List.flatten_cons, total_sleep_append, ih, List.sum_cons,
      List.length_cons]
    simp only [symbol_pulse, total_sleep_append, total_sleep_set_gpio_value, total_sleep]
    rw [Nat.succ_mul]
    omega

/-- Without wrap-around `morse_char` emits the pulses of the code and then a
sleep of two units. -/
theorem morse_char_pulses (interval gpio c : Nat) (morse : String)
    (hc : get_code c = some morse) (hu : 3 * interval < 2 ^ 32) :
    morse_char interval gpio c =
      some ((morse.data.map (symbol_pulse interval gpio)).flatten ++
        [Event.msleep (2 * interval)]) := by
  have hfun : morse_symbol interval gpio = symbol_pulse interval gpio :=
    funext fun s => morse_symbol_eq_pulse interval gpio s hu
  simp [morse_char, hc, hfun, morse_pause]
  omega

/-- C7: for a character `c` with code `get_code c` and a unit `u` with
`3 * u < 2 ^ 32`, `morse_char` emits, for each symbol of the code in order,
pin high, a sleep of `u` (dot) or `3 * u` (dash), pin low and a sleep of `u`,
and after the last symbol one more sleep of `2 * u`; the time slept is the sum
of the symbol durations plus `u` per symbol plus `2 * u`, which is `8 * u` for
dot-dash; for an empty code there is exactly one sleep of `2 * u` and no pin
write. -/
theorem morse_char_timing (interval gpio c : Nat) (morse : String)
    (hc : get_code c = some morse) (hu : 3 * interval < 2 ^ 32) :
    morse_char interval gpio c =
      some ((morse.data.map (symbol_pulse interval gpio)).flatten ++
        [Event.msleep (2 * interval)]) ∧
    total_sleep ((morse.data.map (symbol_pulse interval gpio)).flatten ++
        [Event.msleep (2 * interval)]) =
      (morse.data.map (symbol_duration interval)).sum + morse.data.length * interval +
        2 * interval ∧
    (morse = ".-" →
      total_sleep ((morse.data.map (symbol_pulse interval gpio)).flatten ++
        [Event.msleep (2 * interval)]) = 8 * interval) ∧
    (morse = "" → morse_char interval gpio c = some [Event.msleep (2 * interval)]) := by
  have hmain := morse_char_pulses interval gpio c morse hc hu
  have htot : total_sleep ((morse.data.map (symbol_pulse interval gpio)).flatten ++
        [Event.msleep (2 * interval)]) =
      (morse.data.map (symbol_duration interval)).sum + morse.data.length * interval +
        2 * interval := by
    rw [total_sleep_append, total_sleep_pulses]
    simp [total_sleep]
  refine ⟨hmain, htot, ?_, ?_⟩
  · intro hm
    rw [htot, hm]
    simp [symbol_duration]
    omega
  · intro hm
    rw [hmain, hm]
    simp

/-- C7 at the letter `A` (dot-dash) with the default unit of 300 ms: the
character takes `8 * 300` ms. -/
theorem morse_char_timing_witness :
    get_code 65 = some ".-" ∧ 3 * 300 < 2 ^ 32 ∧
    morse_char 300 18 65 =
      some [Event.writel 262144 (Reg.GPSET 0), Event.msleep 300,
        Event.writel 262144 (Reg.GPCLR 0), Event.msleep 300,
        Event.writel 262144 (Reg.GPSET 0), Event.msleep 900,
        Event.writel 262144 (Reg.GPCLR 0), Event.msleep 300, Event.msleep 600] ∧
    total_sleep ((".-".data.map (symbol_pulse 300 18)).flatten ++
        [Event.msleep (2 * 300)]) = 8 * 300 := by
  have h := morse_char_timing 300 18 65 ".-" (by decide) (by decide)
  exact ⟨by decide, by decide, by decide, h.2.2.1 rfl⟩

/-! ## The structure of a transmission -/

theorem letter_or_digit_isalnum (c : Nat) (h : is_letter_or_digit c = true) :
    c ≠ 0 ∧ isalnum c = true := by
  have hb : c < 123 := by
    simp only [is_letter_or_digit, Bool.or_eq_true, Bool.and_eq_true, decide_eq_true_eq] at h
    omega
  have all : ∀ c, c < 123 → is_letter_or_digit c = true → c ≠ 0 ∧ isalnum c = true := by
    decide
  exact all c hb h

/-- The inner loop passes every character of a run of letters and digits to
`morse_char` and goes on with what follows the run. -/
theorem morse_code_word_run (gpio : Nat) (w rest : List Nat)
    (hw : ∀ c ∈ w, is_letter_or_digit c = true) :
    morse_code_word gpio (w ++ rest) =
      (w.map (Call.morse_char gpio) ++ (morse_code_word gpio rest).1,
        (morse_code_word gpio rest).2) := by
  induction w with
  | nil => simp
  | cons c t ih =>
    have hc := letter_or_digit_isalnum c (hw c (List.mem_cons_self c t))
    have ht := ih (fun x hx => hw x (List.mem_cons_of_mem c hx))
    simp [morse_code_word, hc.1, hc.2, ht]

/-- The inner loop stops at once on the terminator and on a boundary byte. -/
theorem morse_code_word_stop (gpio : Nat) (rest : List Nat)
    (h : peek rest = 0 ∨ isalnum (peek rest) = false) :
    morse_code_word gpio rest = ([], rest) := by
  cases rest with
  | nil => simp [morse_code_word]
  | cons c t =>
    rcases h with h | h
    · have : c = 0 := by simpa [peek] using h
      simp [morse_code_word, this]
    · have : isalnum c = false := by simpa [peek] using h
      simp [morse_code_word, this]

/-- The skip loop passes over a run of boundary bytes. -/
theorem morse_code_skip_run (b rest : List Nat)
    (hb : ∀ c ∈ b, c ≠ 0 ∧ isalnum c = false) :
    morse_code_skip (b ++ rest) = morse_code_skip rest := by
  induction b with
  | nil => simp
  | cons c t ih =>
    have hc := hb c (List.mem_cons_self c t)
    have ht := ih (fun x hx => hb x (List.mem_cons_of_mem c hx))
    simp [morse_code_skip, hc.1, hc.2, ht]

/-- The outer loop is over when the cursor is on the terminator. -/
theorem morse_code_loop_done (gpio fuel : Nat) (buf : List Nat) (h : peek buf = 0) :
    morse_code_loop gpio fuel buf = some [] := by
  cases fuel <;> simp [morse_code_loop, h]

/-- One iteration of the outer loop, with enough fuel. -/
theorem morse_code_loop_step (gpio fuel : Nat) (buf : List Nat) (hp : peek buf ≠ 0)
    (hf : buf.length ≤ fuel) :
    ∃ later,
      morse_code_loop gpio (morse_code_skip (morse_code_word gpio buf).2).length
        (morse_code_skip (morse_code_word gpio buf).2) = some later ∧
      morse_code_loop gpio fuel buf =
        some ((morse_code_word gpio buf).1 ++ Call.morse_pause 2 :: later) := by
  obtain ⟨later, hl⟩ := morse_code_loop_total gpio _
    (morse_code_skip (morse_code_word gpio buf).2) (Nat.le_refl _)
  refine ⟨later, hl, ?_⟩
  have hlt := morse_code_progress gpio buf hp
  cases fuel with
  | zero => omega
  | succ f =>
    have hfuel := morse_code_loop_fuel gpio f
      (morse_code_skip (morse_code_word gpio buf).2) (by omega)
    simp [morse_code_loop, hp, hfuel, hl]

/-- The outer loop on a word followed by the end of the buffer. -/
theorem morse_code_loop_word (gpio fuel : Nat) (w : List Nat) (hne : w ≠ [])
    (hw : ∀ c ∈ w, is_letter_or_digit c = true) (hf : w.length ≤ fuel) :
    morse_code_loop gpio fuel w =
      some (w.map (Call.morse_char gpio) ++ [Call.morse_pause 2]) := by
  have hp : peek w ≠ 0 := by
    cases w with
    | nil => exact absurd rfl hne
    | cons c t => simpa [peek] using (letter_or_digit_isalnum c (hw c (List.mem_cons_self c t))).1
  obtain ⟨later, hl, hs⟩ := morse_code_loop_step gpio fuel w hp hf
  have hword : morse_code_word gpio w = (w.map (Call.morse_char gpio), []) := by
    have := morse_code_word_run gpio w [] hw
    simpa [morse_code_word] using this
  rw [hword] at hl hs
  simp [morse_code_skip, morse_code_loop, peek] at hl
  rw [hs, ← hl]

theorem seq_trace_some {α : Type} (a b : List α) :
    seq_trace (some a) (some b) = some (a ++ b) := rfl

theorem seq_trace_assoc {α : Type} (a b c : Option (List α)) :
    seq_trace (seq_trace a b) c = seq_trace a (seq_trace b c) := by
  cases a <;> cases b <;> cases c <;> simp [seq_trace]

/-- Running calls one after the other concatenates what they do. -/
theorem run_calls_append (interval : Nat) (xs ys : List Call) :
    run_calls interval (xs ++ ys) =
      seq_trace (run_calls interval xs) (run_calls interval ys) := by
  induction xs with
  | nil =>
    rw [List.nil_append]
    cases h : run_calls interval ys <;> simp [run_calls, seq_trace]
  | cons c cs ih =>
    rw [List.cons_append]
    simp only [run_calls]
    rw [ih, seq_trace_assoc]

/-- The characters of a word of letters and digits all have a trace, and running
their `morse_char` calls gives the concatenation of these traces. -/
theorem run_calls_word (interval gpio : Nat) (w : List Nat)
    (hw : ∀ c ∈ w, is_letter_or_digit c = true) :
    ∃ ts, List.Forall₂ (fun c t => morse_char interval gpio c = some t) w ts ∧
      run_calls interval (w.map (Call.morse_char gpio)) = some ts.flatten := by
  induction w with
  | nil => exact ⟨[], List.Forall₂.nil, by simp [run_calls]⟩
  | cons c t ih =>
    obtain ⟨ts, hts, hr⟩ := ih (fun x hx => hw x (List.mem_cons_of_mem c hx))
    have hcode := (get_code_international_aux c (hw c (List.mem_cons_self c t))).1
    obtain ⟨morse, hm⟩ := Option.isSome_iff_exists.mp hcode
    have hchar : morse_char interval gpio c =
        some ((morse.data.map (morse_symbol interval gpio)).flatten ++
          morse_pause interval 2) := by
      simp [morse_char, hm]
    exact ⟨_ :: ts, List.Forall₂.cons hchar hts, by simp [run_calls, Call.run, hchar, hr, seq_trace]⟩

/-- The loop body of `morse_char` starts by driving the pin high and ends by
driving it low and sleeping one unit. -/
theorem morse_symbol_shape (interval gpio : Nat) (s : Char) :
    ∃ ms, morse_symbol interval gpio s =
      set_gpio_value gpio true ++ [Event.msleep ms] ++ set_gpio_value gpio false ++
        morse_pause interval 1 := by
  by_cases hs : s = '.'
  · exact ⟨interval, by simp [morse_symbol, morse_short_signal, hs]⟩
  · exact ⟨3 * interval % 2 ^ 32, by simp [morse_symbol, morse_long_signal, hs]⟩

theorem morse_symbols_shape (interval gpio : Nat) (syms : List Char) (hne : syms ≠ []) :
    (∃ t, (syms.map (morse_symbol interval gpio)).flatten = set_gpio_value gpio true ++ t) ∧
    (∃ pre, (syms.map (morse_symbol interval gpio)).flatten =
      pre ++ set_gpio_value gpio false ++ morse_pause interval 1) := by
  induction syms with
  | nil => exact absurd rfl hne
  | cons s rest ih =>
    obtain ⟨ms, hms⟩ := morse_symbol_shape interval gpio s
    refine ⟨⟨[Event.msleep ms] ++ set_gpio_value gpio false ++ morse_pause interval 1 ++
      (rest.map (morse_symbol interval gpio)).flatten, by simp [hms]⟩, ?_⟩
    by_cases hr : rest = []
    · subst hr
      exact ⟨set_gpio_value gpio true ++ [Event.msleep ms], by simp [hms]⟩
    · obtain ⟨pre, hpre⟩ := (ih hr).2
      exact ⟨morse_symbol interval gpio s ++ pre, by simp [hpre]⟩

/-- The trace of a letter or digit: it starts with the pin driven high and ends
with the pin driven low, the sleep of one unit after the last symbol and the
sleep of two units that ends the character. -/
theorem morse_char_shape (interval gpio c : Nat) (h : is_letter_or_digit c = true) :
    ∃ t, morse_char interval gpio c = some t ∧
      (∃ tl, t = set_gpio_value gpio true ++ tl) ∧
      (∃ pre, t = pre ++ set_gpio_value gpio false ++ morse_pause interval 1 ++
        morse_pause interval 2) := by
  obtain ⟨hsome, hne⟩ := get_code_international_aux c h
  obtain ⟨morse, hm⟩ := Option.isSome_iff_exists.mp hsome
  have hdata : morse.data ≠ [] := by
    intro hd
    apply hne
    rw [hm]
    congr 1
    cases morse
    simp_all
  obtain ⟨⟨tl, htl⟩, ⟨pre, hpre⟩⟩ := morse_symbols_shape interval gpio morse.data hdata
  refine ⟨_, by simp [morse_char, hm]; rfl, ⟨tl ++ morse_pause interval 2, ?_⟩, ⟨pre, ?_⟩⟩
  · rw [htl]; simp
  · rw [hpre]

/-- The trace of the characters of a non-empty word of letters and digits
starts with the pin driven high and ends as a character ends. -/
theorem run_calls_word_shape (interval gpio : Nat) (w : List Nat) (hne : w ≠ [])
    (hw : ∀ c ∈ w, is_letter_or_digit c = true) :
    ∃ t, run_calls interval (w.map (Call.morse_char gpio)) = some t ∧
      (∃ tl, t = set_gpio_value gpio true ++ tl) ∧
      (∃ pre, t = pre ++ set_gpio_value gpio false ++ morse_pause interval 1 ++
        morse_pause interval 2) := by
  obtain ⟨ts, -, hrun⟩ := run_calls_word interval gpio w hw
  refine ⟨ts.flatten, hrun, ?_, ?_⟩
  · cases w with
    | nil => exact absurd rfl hne
    | cons c rest =>
      obtain ⟨t, ht, ⟨tl, htl⟩, -⟩ :=
        morse_char_shape interval gpio c (hw c (List.mem_cons_self c rest))
      obtain ⟨ts2, -, hr2⟩ := run_calls_word interval gpio rest
        (fun x hx => hw x (List.mem_cons_of_mem c hx))
      have : run_calls interval ((c :: rest).map (Call.morse_char gpio)) =
          some (t ++ ts2.flatten) := by
        simp [run_calls, Call.run, ht, hr2, seq_trace]
      rw [this] at hrun
      injection hrun with hrun
      exact ⟨tl ++ ts2.flatten, by rw [← hrun, htl]; simp⟩
  · rcases List.eq_nil_or_concat w with h | ⟨init, last, h⟩
    · exact absurd h hne
    · rw [List.concat_eq_append] at h
      subst h
      have hlast : is_letter_or_digit last = true := hw last (by simp)
      obtain ⟨t, ht, -, ⟨pre, hpre⟩⟩ := morse_char_shape interval gpio last hlast
      obtain ⟨ts2, -, hr2⟩ := run_calls_word interval gpio init
        (fun x hx => hw x (by simp [hx]))
      have : run_calls interval ((init ++ [last]).map (Call.morse_char gpio)) =
          some (ts2.flatten ++ t) := by
        rw [List.map_append, run_calls_append, hr2]
        simp [run_calls, Call.run, ht, seq_trace]
      rw [this] at hrun
      injection hrun with hrun
      exact ⟨ts2.flatten ++ pre, by rw [← hrun, hpre]; simp⟩

/-- The calls of `morse_code` on a first chunk that is one word. -/
theorem morse_code_word_calls (gpio : Nat) (w : List Nat) (hne : w ≠ [])
    (hw : ∀ c ∈ w, is_letter_or_digit c = true) (start : Bool) :
    morse_code gpio w start =
      some (w.map (Call.morse_char gpio) ++ [Call.morse_pause 2]) := by
  have hp : isalnum (peek w) = true := by
    cases w with
    | nil => exact absurd rfl hne
    | cons c t => simpa [peek] using (letter_or_digit_isalnum c (hw c (List.mem_cons_self c t))).2
  simp [morse_code, hp, morse_code_loop_word gpio w.length w hne hw (Nat.le_refl _)]

/-- The trace of `morse_code` on a chunk that is one word: the traces of the
characters, then the word-end pause. -/
theorem morse_code_word_trace (interval gpio : Nat) (w : List Nat) (hne : w ≠ [])
    (hw : ∀ c ∈ w, is_letter_or_digit c = true) (start : Bool) (t : List Event)
    (ht : run_calls interval (w.map (Call.morse_char gpio)) = some t) :
    morse_code_trace interval gpio w start = some (t ++ morse_pause interval 2) := by
  simp [morse_code_trace, morse_code_word_calls gpio w hne hw start, run_calls_append, ht,
    run_calls, Call.run, seq_trace]

/-! ## One word, and a word split over two chunks -/

/-- C8: for a non-empty chunk made only of letters and digits,
`morse_code(chunk, start = true)` produces the concatenation of the
`morse_char` traces of its characters, in order, followed by exactly one pause
of two units, and the trace starts with the pin driven high (no leading pause);
for `SOS`, without wrap-around, this is three short pulses, three long pulses
and three short pulses, one unit after every symbol, two more units after every
character and a final pause of two units. -/
theorem single_word_transmission (interval gpio : Nat) (chunk : List Nat)
    (hne : chunk ≠ []) (hw : ∀ c ∈ chunk, is_letter_or_digit c = true) :
    (∃ ts, List.Forall₂ (fun c t => morse_char interval gpio c = some t) chunk ts ∧
      morse_code_trace interval gpio chunk true =
        some (ts.flatten ++ morse_pause interval 2) ∧
      ∃ tl, ts.flatten = set_gpio_value gpio true ++ tl) ∧
    (chunk = cstr "SOS" → 3 * interval < 2 ^ 32 →
      morse_code_trace interval gpio chunk true =
        some ((symbol_pulse interval gpio '.' ++ symbol_pulse interval gpio '.' ++
              symbol_pulse interval gpio '.' ++ [Event.msleep (2 * interval)]) ++
            (symbol_pulse interval gpio '-' ++ symbol_pulse interval gpio '-' ++
              symbol_pulse interval gpio '-' ++ [Event.msleep (2 * interval)]) ++
            (symbol_pulse interval gpio '.' ++ symbol_pulse interval gpio '.' ++
              symbol_pulse interval gpio '.' ++ [Event.msleep (2 * interval)]) ++
            [Event.msleep (2 * interval)])) := by
  constructor
  · obtain ⟨ts, hts, hrun⟩ := run_calls_word interval gpio chunk hw
    obtain ⟨t, ht, htl, -⟩ := run_calls_word_shape interval gpio chunk hne hw
    rw [hrun] at ht
    injection ht with ht
    exact ⟨ts, hts, morse_code_word_trace interval gpio chunk hne hw true _ hrun,
      by rw [ht]; exact htl⟩
  · intro hc hu
    have hS := morse_char_pulses interval gpio 83 "..." (by decide) hu
    have hO := morse_char_pulses interval gpio 79 "---" (by decide) hu
    have hrun : run_calls interval (chunk.map (Call.morse_char gpio)) =
        some ((symbol_pulse interval gpio '.' ++ symbol_pulse interval gpio '.' ++
              symbol_pulse interval gpio '.' ++ [Event.msleep (2 * interval)]) ++
            (symbol_pulse interval gpio '-' ++ symbol_pulse interval gpio '-' ++
              symbol_pulse interval gpio '-' ++ [Event.msleep (2 * interval)]) ++
            (symbol_pulse interval gpio '.' ++ symbol_pulse interval gpio '.' ++
              symbol_pulse interval gpio '.' ++ [Event.msleep (2 * interval)])) := by
      subst hc
      simp [cstr, run_calls, Call.run, hS, hO, seq_trace]
    have h2 : morse_pause interval 2 = [Event.msleep (2 * interval)] := by
      simp only [morse_pause]
      rw [Nat.mod_eq_of_lt (by omega)]
    rw [morse_code_word_trace interval gpio chunk hne hw true _ hrun, h2]

/-- C8 at `SOS` with the default unit of 300 ms on pin 18. -/
theorem single_word_transmission_witness :
    morse_code_trace 300 18 (cstr "SOS") true =
      some [Event.writel 262144 (Reg.GPSET 0), Event.msleep 300,
        Event.writel 262144 (Reg.GPCLR 0), Event.msleep 300,
        Event.writel 262144 (Reg.GPSET 0), Event.msleep 300,
        Event.writel 262144 (Reg.GPCLR 0), Event.msleep 300,
        Event.writel 262144 (Reg.GPSET 0), Event.msleep 300,
        Event.writel 262144 (Reg.GPCLR 0), Event.msleep 300, Event.msleep 600,
        Event.writel 262144 (Reg.GPSET 0), Event.msleep 900,
        Event.writel 262144 (Reg.GPCLR 0), Event.msleep 300,
        Event.writel 262144 (Reg.GPSET 0), Event.msleep 900,
        Event.writel 262144 (Reg.GPCLR 0), Event.msleep 300,
        Event.writel 262144 (Reg.GPSET 0), Event.msleep 900,
        Event.writel 262144 (Reg.GPCLR 0), Event.msleep 300, Event.msleep 600,
        Event.writel 262144 (Reg.GPSET 0), Event.msleep 300,
        Event.writel 262144 (Reg.GPCLR 0), Event.msleep 300,
        Event.writel 262144 (Reg.GPSET 0), Event.msleep 300,
        Event.writel 262144 (Reg.GPCLR 0), Event.msleep 300,
        Event.writel 262144 (Reg.GPSET 0), Event.msleep 300,
        Event.writel 262144 (Reg.GPCLR 0), Event.msleep 300, Event.msleep 600,
        Event.msleep 600] :=
  (single_word_transmission 300 18 (cstr "SOS") (by decide) (by decide)).2 rfl (by decide)

/-- C1, refuted at its own example: with a unit of 300 ms on pin 18, sending
`HEL` as a first chunk and then `LO` as a continuation does not produce the
trace of `HELLO` sent whole. -/
theorem chunk_split_differs :
    seq_trace (morse_code_trace 300 18 (cstr "HEL") true)
        (morse_code_trace 300 18 (cstr "LO") false) ≠
      morse_code_trace 300 18 (cstr "HELLO") true := by
  decide

/-- C1, amended: for a word of letters and digits split into non-empty pieces
`a` and `b`, `morse_code(a, start = true)` followed by
`morse_code(b, start = false)` produces the trace of the characters of `a`, the
word-end pause of two units that closes the first chunk, the trace of the
characters of `b` and a final pause of two units, whereas the word sent whole
produces the characters of `a`, those of `b` and one pause of two units: the
two differ exactly by the pause of two units at the split point. -/
theorem chunk_split_extra_pause (interval gpio : Nat) (a b : List Nat)
    (ha : a ≠ []) (hb : b ≠ [])
    (hla : ∀ c ∈ a, is_letter_or_digit c = true)
    (hlb : ∀ c ∈ b, is_letter_or_digit c = true) :
    ∃ ta tb, run_calls interval (a.map (Call.morse_char gpio)) = some ta ∧
      run_calls interval (b.map (Call.morse_char gpio)) = some tb ∧
      morse_code_trace interval gpio (a ++ b) true =
        some (ta ++ tb ++ morse_pause interval 2) ∧
      seq_trace (morse_code_trace interval gpio a true)
          (morse_code_trace interval gpio b false) =
        some (ta ++ morse_pause interval 2 ++ tb ++ morse_pause interval 2) := by
  obtain ⟨tsa, -, hra⟩ := run_calls_word interval gpio a hla
  obtain ⟨tsb, -, hrb⟩ := run_calls_word interval gpio b hlb
  have hlab : ∀ c ∈ a ++ b, is_letter_or_digit c = true := by
    intro c hc
    rcases List.mem_append.mp hc with h | h
    · exact hla c h
    · exact hlb c h
  have hrab : run_calls interval ((a ++ b).map (Call.morse_char gpio)) =
      some (tsa.flatten ++ tsb.flatten) := by
    rw [List.map_append, run_calls_append, hra, hrb, seq_trace_some]
  refine ⟨tsa.flatten, tsb.flatten, hra, hrb, ?_, ?_⟩
  · exact morse_code_word_trace interval gpio (a ++ b) (by simp [ha]) hlab true _ hrab
  · rw [morse_code_word_trace interval gpio a ha hla true _ hra,
      morse_code_word_trace interval gpio b hb hlb false _ hrb, seq_trace_some]
    simp

/-- C1, amended, at `HEL` and `LO`. -/
theorem chunk_split_extra_pause_witness :
    ∃ ta tb, run_calls 300 ((cstr "HEL").map (Call.morse_char 18)) = some ta ∧
      run_calls 300 ((cstr "LO").map (Call.morse_char 18)) = some tb ∧
      morse_code_trace 300 18 (cstr "HEL" ++ cstr "LO") true =
        some (ta ++ tb ++ morse_pause 300 2) ∧
      seq_trace (morse_code_trace 300 18 (cstr "HEL") true)
          (morse_code_trace 300 18 (cstr "LO") false) =
        some (ta ++ morse_pause 300 2 ++ tb ++ morse_pause 300 2) :=
  chunk_split_extra_pause 300 18 (cstr "HEL") (cstr "LO") (by decide) (by decide)
    (by decide) (by decide)

/-- C2, at the failing input: on the first chunk `HI THERE` the skip loop's
increment consumes the `T` that ends the run of boundary bytes, so `morse_char`
is called for `H I H E R E` and never for `T`. -/
theorem letter_after_boundary_dropped :
    morse_code 18 (cstr "HI THERE") true =
      some [Call.morse_char 18 72, Call.morse_char 18 73, Call.morse_pause 2,
        Call.morse_char 18 72, Call.morse_char 18 69, Call.morse_char 18 82,
        Call.morse_char 18 69, Call.morse_pause 2] ∧
    (morse_code 18 (cstr "HI THERE") true).map transmitted = some (cstr "HIHERE") ∧
    (cstr "HI THERE").filter is_letter_or_digit = cstr "HITHERE" ∧
    morse_code_skip (cstr " THERE") = cstr "HERE" := by
  decide

/-! ## Word boundaries -/

/-- The skip loop also consumes the letter or digit that ends it. -/
theorem morse_code_skip_letter (c : Nat) (rest : List Nat)
    (h : is_letter_or_digit c = true) : morse_code_skip (c :: rest) = rest := by
  have hc := letter_or_digit_isalnum c h
  simp [morse_code_skip, hc.1, hc.2]

theorem peek_boundary_run (b rest : List Nat) (hb : b ≠ [])
    (hbb : ∀ c ∈ b, c ≠ 0 ∧ isalnum c = false) :
    peek (b ++ rest) ≠ 0 ∧ isalnum (peek (b ++ rest)) = false := by
  cases b with
  | nil => exact absurd rfl hb
  | cons c t => simpa [peek] using hbb c (List.mem_cons_self c t)

/-- The outer loop on a word followed by a run of boundary bytes: the
characters of the word, the word-end pause, and then the loop from where the
skip loop leaves the cursor. -/
theorem morse_code_loop_word_boundary (gpio fuel : Nat) (w b rest : List Nat)
    (hne : w ≠ []) (hw : ∀ c ∈ w, is_letter_or_digit c = true)
    (hb : b ≠ []) (hbb : ∀ c ∈ b, c ≠ 0 ∧ isalnum c = false)
    (hf : (w ++ (b ++ rest)).length ≤ fuel) :
    ∃ later,
      morse_code_loop gpio (morse_code_skip rest).length (morse_code_skip rest) =
        some later ∧
      morse_code_loop gpio fuel (w ++ (b ++ rest)) =
        some (w.map (Call.morse_char gpio) ++ Call.morse_pause 2 :: later) := by
  have hp : peek (w ++ (b ++ rest)) ≠ 0 := by
    cases w with
    | nil => exact absurd rfl hne
    | cons c t => simpa [peek] using (letter_or_digit_isalnum c (hw c (List.mem_cons_self c t))).1
  obtain ⟨later, hl, hs⟩ := morse_code_loop_step gpio fuel (w ++ (b ++ rest)) hp hf
  have hstop := morse_code_word_stop gpio (b ++ rest)
    (Or.inr (peek_boundary_run b rest hb hbb).2)
  have hword : morse_code_word gpio (w ++ (b ++ rest)) =
      (w.map (Call.morse_char gpio), b ++ rest) := by
    rw [morse_code_word_run gpio w (b ++ rest) hw, hstop]
    simp
  rw [hword] at hl hs
  simp only [morse_code_skip_run b rest hbb] at hl hs
  exact ⟨later, hl, hs⟩

/-- C3, refuted at its own example: in the trace of the first chunk `HI THERE`
(unit 300 ms, pin 18) the sixth pin-low write is the last one of `HI`, and the
sleeps from there to the next pin-high write are 300, 600 and 600 ms, five
units and not seven; `morse_code` makes no `morse_pause(5)` call at all. -/
theorem word_gap_not_seven_units :
    (run_calls 300 ((cstr "HI").map (Call.morse_char 18))).map (after_low 6) =
      some [Event.msleep 300, Event.msleep 600] ∧
    (morse_code_trace 300 18 (cstr "HI THERE") true).map
        (fun t => leading_sleeps (after_low 6 t)) = some [300, 600, 600] ∧
    (morse_code_trace 300 18 (cstr "HI THERE") true).map
        (fun t => ((after_low 6 t).drop 3).head?) =
      some (some (Event.writel 262144 (Reg.GPSET 0))) ∧
    300 + 600 + 600 ≠ 7 * 300 ∧
    (morse_code 18 (cstr "HI THERE") true).map
        (fun calls => calls.contains (Call.morse_pause 5)) = some false := by
  decide

/-- C3, amended: for a first chunk made of a word `w1`, a run `b` of boundary
bytes and a word `w2`, the trace is the trace of the characters of `w1`, whose
end is the last pin-low write of the word followed by the sleep of one unit
after the symbol and the sleep of two units after the character, then the
word-end pause of two units, then a remainder that is empty or starts with a
pin-high write; so the sleeps between the last pin-low of the first word and
the next pin write are of one, two and two units, five units in all when
nothing wraps around, and there is no pause of five units. -/
theorem word_gap_five_units (interval gpio : Nat) (w1 b w2 : List Nat)
    (h1 : w1 ≠ []) (hw1 : ∀ c ∈ w1, is_letter_or_digit c = true)
    (hb : b ≠ []) (hbb : ∀ c ∈ b, c ≠ 0 ∧ isalnum c = false)
    (h2 : w2 ≠ []) (hw2 : ∀ c ∈ w2, is_letter_or_digit c = true) :
    ∃ pre rest,
      run_calls interval (w1.map (Call.morse_char gpio)) =
        some (pre ++ set_gpio_value gpio false ++ morse_pause interval 1 ++
          morse_pause interval 2) ∧
      morse_code_trace interval gpio (w1 ++ (b ++ w2)) true =
        some (pre ++ set_gpio_value gpio false ++
          (morse_pause interval 1 ++ morse_pause interval 2 ++ morse_pause interval 2) ++
          rest) ∧
      (rest = [] ∨ ∃ tl, rest = set_gpio_value gpio true ++ tl) ∧
      (2 * interval < 2 ^ 32 →
        total_sleep (morse_pause interval 1 ++ morse_pause interval 2 ++
          morse_pause interval 2) = 5 * interval) := by
  obtain ⟨t1, hr1, -, ⟨pre, hpre⟩⟩ := run_calls_word_shape interval gpio w1 h1 hw1
  obtain ⟨later, hl, hs⟩ := morse_code_loop_word_boundary gpio (w1 ++ (b ++ w2)).length
    w1 b w2 h1 hw1 hb hbb (Nat.le_refl _)
  have hcalls : morse_code gpio (w1 ++ (b ++ w2)) true =
      some (w1.map (Call.morse_char gpio) ++ Call.morse_pause 2 :: later) := by
    simp only [List.length_append] at hs
    simp [morse_code, hs]
  have htot : 2 * interval < 2 ^ 32 →
      total_sleep (morse_pause interval 1 ++ morse_pause interval 2 ++
        morse_pause interval 2) = 5 * interval := by
    intro hu
    simp only [morse_pause, List.append_assoc, List.singleton_append, total_sleep]
    rw [Nat.mod_eq_of_lt (by omega : 1 * interval < 2 ^ 32),
      Nat.mod_eq_of_lt (by omega : 2 * interval < 2 ^ 32)]
    omega
  cases w2 with
  | nil => exact absurd rfl h2
  | cons c t =>
    rw [morse_code_skip_letter c t (hw2 c (List.mem_cons_self c t))] at hl
    have hwt : ∀ x ∈ t, is_letter_or_digit x = true :=
      fun x hx => hw2 x (List.mem_cons_of_mem c hx)
    by_cases ht : t = []
    · subst ht
      have hlater : later = [] := by
        simp [morse_code_loop, peek] at hl
        exact hl
      subst hlater
      refine ⟨pre, [], by rw [hr1, hpre], ?_, Or.inl rfl, htot⟩
      simp [morse_code_trace, hcalls, run_calls_append, hr1, run_calls, Call.run, seq_trace,
        hpre]
    · rw [morse_code_loop_word gpio t.length t ht hwt (Nat.le_refl _)] at hl
      injection hl with hl
      obtain ⟨tt, hrt, ⟨tl, htl⟩, -⟩ := run_calls_word_shape interval gpio t ht hwt
      refine ⟨pre, set_gpio_value gpio true ++ (tl ++ morse_pause interval 2),
        by rw [hr1, hpre], ?_, Or.inr ⟨_, rfl⟩, htot⟩
      have hlr : run_calls interval later = some (tt ++ morse_pause interval 2) := by
        rw [← hl, run_calls_append, hrt]
        simp [run_calls, Call.run, seq_trace]
      have : run_calls interval
          (w1.map (Call.morse_char gpio) ++ Call.morse_pause 2 :: later) =
          some (t1 ++ (morse_pause interval 2 ++ (tt ++ morse_pause interval 2))) := by
        rw [run_calls_append, hr1]
        simp [run_calls, Call.run, hlr, seq_trace]
      simp only [morse_code_trace, hcalls, this, hpre, htl]
      simp

/-- C3, amended, at `HI THERE`. -/
theorem word_gap_five_units_witness :
    ∃ pre rest,
      run_calls 300 ((cstr "HI").map (Call.morse_char 18)) =
        some (pre ++ set_gpio_value 18 false ++ morse_pause 300 1 ++ morse_pause 300 2) ∧
      morse_code_trace 300 18 (cstr "HI" ++ (cstr " " ++ cstr "THERE")) true =
        some (pre ++ set_gpio_value 18 false ++
          (morse_pause 300 1 ++ morse_pause 300 2 ++ morse_pause 300 2) ++ rest) ∧
      (rest = [] ∨ ∃ tl, rest = set_gpio_value 18 true ++ tl) ∧
      (2 * 300 < 2 ^ 32 →
        total_sleep (morse_pause 300 1 ++ morse_pause 300 2 ++ morse_pause 300 2) =
          5 * 300) :=
  word_gap_five_units 300 18 (cstr "HI") (cstr " ") (cstr "THERE") (by decide) (by decide)
    (by decide) (by decide) (by decide) (by decide)

/-- C4, refuted on a chunk that is one space: `morse_code(" ", start = false)`
sleeps five units once, while a sleep of five units followed by the trace of
`morse_code("", start = false)` is two such sleeps. -/
theorem leading_boundary_alone :
    morse_code_trace 300 18 (cstr " ") false = some [Event.msleep 1500] ∧
    seq_trace (some (morse_pause 300 5)) (morse_code_trace 300 18 (cstr "") false) =
      some [Event.msleep 1500, Event.msleep 1500] ∧
    morse_code_trace 300 18 (cstr " ") false ≠
      seq_trace (some (morse_pause 300 5)) (morse_code_trace 300 18 (cstr "") false) := by
  decide

/-- C4, amended: for a continuation chunk that starts with a non-empty run `b`
of non-NUL boundary bytes followed by a text `w`, `morse_code` makes one pause
of five units and then the calls of its outer loop from where the skip loop
leaves the cursor in `w`; the run `b` adds no pin write and no further pause,
for another non-empty run `b'` gives the same calls; and when `w` is empty
the trace is that one sleep alone. -/
theorem leading_boundary_pause (interval gpio : Nat) (b b' w : List Nat)
    (hb : b ≠ []) (hbb : ∀ c ∈ b, c ≠ 0 ∧ isalnum c = false)
    (hb' : b' ≠ []) (hbb' : ∀ c ∈ b', c ≠ 0 ∧ isalnum c = false) :
    ∃ later,
      morse_code_loop gpio (morse_code_skip w).length (morse_code_skip w) = some later ∧
      morse_code gpio (b ++ w) false = some (Call.morse_pause 5 :: later) ∧
      morse_code gpio (b' ++ w) false = some (Call.morse_pause 5 :: later) ∧
      morse_code_trace interval gpio (b ++ w) false =
        seq_trace (some (morse_pause interval 5)) (run_calls interval later) ∧
      (w = [] → morse_code_trace interval gpio (b ++ w) false =
        some (morse_pause interval 5)) := by
  obtain ⟨later, hl⟩ := morse_code_loop_total gpio (morse_code_skip w).length
    (morse_code_skip w) (Nat.le_refl _)
  have key : ∀ (x : List Nat), x ≠ [] → (∀ c ∈ x, c ≠ 0 ∧ isalnum c = false) →
      morse_code gpio (x ++ w) false = some (Call.morse_pause 5 :: later) := by
    intro x hx hxx
    have hfuel := morse_code_loop_fuel gpio (x ++ w).length (morse_code_skip w) (by
      have := morse_code_skip_length w
      simp only [List.length_append]
      omega)
    simp only [List.length_append] at hfuel
    simp [morse_code, (peek_boundary_run x w hx hxx).2, morse_code_skip_run x w hxx,
      hfuel, hl]
  have htrace : morse_code_trace interval gpio (b ++ w) false =
      seq_trace (some (morse_pause interval 5)) (run_calls interval later) := by
    simp [morse_code_trace, key b hb hbb, run_calls, Call.run]
  refine ⟨later, hl, key b hb hbb, key b' hb' hbb', htrace, ?_⟩
  intro hw
  subst hw
  have : later = [] := by
    simp [morse_code_skip, morse_code_loop, peek] at hl
    exact hl
  rw [htrace, this]
  simp [run_calls, seq_trace]

/-- C4, amended, at the continuation chunks ` HERE` and `, HERE`. -/
theorem leading_boundary_pause_witness :
    ∃ later,
      morse_code_loop 18 (morse_code_skip (cstr "HERE")).length
        (morse_code_skip (cstr "HERE")) = some later ∧
      morse_code 18 (cstr " " ++ cstr "HERE") false = some (Call.morse_pause 5 :: later) ∧
      morse_code 18 (cstr ", " ++ cstr "HERE") false = some (Call.morse_pause 5 :: later) ∧
      morse_code_trace 300 18 (cstr " " ++ cstr "HERE") false =
        seq_trace (some (morse_pause 300 5)) (run_calls 300 later) ∧
      (cstr "HERE" = [] → morse_code_trace 300 18 (cstr " " ++ cstr "HERE") false =
        some (morse_pause 300 5)) :=
  leading_boundary_pause 300 18 (cstr " ") (cstr ", ") (cstr "HERE") (by decide) (by decide)
    (by decide) (by decide)

/-! ## `leddy_write` and `set_interval` -/

/-- A copy from readable user memory succeeds and yields the bytes. -/
theorem copy_from_user_ok (umem : Nat → Option Nat) :
    ∀ (n src : Nat), (∀ i, src ≤ i → i < src + n → (umem i).isSome = true) →
      copy_from_user umem src n = some (user_bytes umem src n) := by
  intro n
  induction n with
  | zero => intro src _; simp [copy_from_user, user_bytes]
  | succ n ih =>
    intro src h
    have h0 := h src (Nat.le_refl _) (by omega)
    obtain ⟨b, hb⟩ := Option.isSome_iff_exists.mp h0
    have hrest := ih (src + 1) (fun i h1 h2 => h i (by omega) (by omega))
    simp only [copy_from_user, hb, hrest, user_bytes, List.range'_succ, List.map_cons,
      Option.getD_some]

/-- The loop of `leddy_write` when all `count` bytes are readable: it ends and
returns `count`. -/
theorem leddy_write_loop_total (umem : Nat → Option Nat) (count : Nat)
    (hok : ∀ i, i < count → (umem i).isSome = true) :
    ∀ (fuel buf_offset : Nat), count - buf_offset ≤ fuel →
      ∃ inv, leddy_write_loop umem count fuel buf_offset = some ((count : Int), inv) := by
  intro fuel
  induction fuel with
  | zero =>
    intro off h
    exact ⟨[], by simp [leddy_write_loop]; omega⟩
  | succ f ih =>
    intro off h
    by_cases hlt : off < count
    · have hcopy := copy_from_user_ok umem
        (if count - off < WRITE_BUF_SIZE then count - off else WRITE_BUF_SIZE) off
        (fun i _ h2 => hok i (by
          simp only [WRITE_BUF_SIZE] at h2
          split_ifs at h2 <;> omega))
      obtain ⟨inv, hinv⟩ := ih
        (off + (if count - off < WRITE_BUF_SIZE then count - off else WRITE_BUF_SIZE)) (by
          simp only [WRITE_BUF_SIZE]
          split_ifs <;> omega)
      exact ⟨(user_bytes umem off
          (if count - off < WRITE_BUF_SIZE then count - off else WRITE_BUF_SIZE) ++ [0],
          off == 0) :: inv, by simp only [leddy_write_loop, hlt, if_true, hcopy, hinv]⟩
    · exact ⟨[], by simp [leddy_write_loop, hlt]⟩

/-- The loop of `leddy_write` from chunk `j` when the next `m` chunks are
readable and the copy of the chunk after them fails: it hands those `m` chunks
to `morse_code` and returns the offset of the failing chunk. -/
theorem leddy_write_loop_fault (umem : Nat → Option Nat) (count : Nat) :
    ∀ (m j fuel : Nat), m < fuel → 63 * (j + m) < count →
      (∀ i, 63 * j ≤ i → i < 63 * (j + m) → (umem i).isSome = true) →
      copy_from_user umem (63 * (j + m))
        (if count - 63 * (j + m) < WRITE_BUF_SIZE then count - 63 * (j + m)
         else WRITE_BUF_SIZE) = none →
      leddy_write_loop umem count fuel (63 * j) =
        some (((63 * (j + m) : Nat) : Int),
          (List.range' j m).map
            (fun q => (user_bytes umem (63 * q) 63 ++ [0], 63 * q == 0))) := by
  intro m
  induction m with
  | zero =>
    intro j fuel hf hlt _ hfail
    cases fuel with
    | zero => omega
    | succ f =>
      simp only [Nat.add_zero] at hlt hfail
      simp [leddy_write_loop, hlt, hfail]
  | succ m ih =>
    intro j fuel hf hlt hok hfail
    cases fuel with
    | zero => omega
    | succ f =>
      have hj : 63 * j < count := by omega
      have hsize : (if count - 63 * j < WRITE_BUF_SIZE then count - 63 * j
          else WRITE_BUF_SIZE) = 63 := by
        simp only [WRITE_BUF_SIZE]
        split_ifs <;> omega
      have hcopy := copy_from_user_ok umem 63 (63 * j)
        (fun i h1 h2 => hok i h1 (by omega))
      have hnext := ih (j + 1) f (by omega) (by
          have : j + 1 + m = j + (m + 1) := by omega
          rw [this]; exact hlt)
        (fun i h1 h2 => hok i (by omega) (by
          have : j + 1 + m = j + (m + 1) := by omega
          rw [this] at h2; exact h2))
        (by
          have : j + 1 + m = j + (m + 1) := by omega
          rw [this]; exact hfail)
      have harg : 63 * j + 63 = 63 * (j + 1) := by omega
      have hidx : j + 1 + m = j + (m + 1) := by omega
      simp only [leddy_write_loop, hj, if_true, hsize, hcopy, harg, hnext, hidx,
        List.range'_succ, List.map_cons]

/-- C9: take a write of `count` bytes whose first `k` chunks of 63 bytes are
readable.  If these chunks cover the write (every chunk copy succeeds),
`leddy_write` returns `count`.  If chunk `k` starts inside the write and its
copy fails, `leddy_write` stops there: `morse_code` has been called on the
first `k` chunks only, nothing is transmitted for chunk `k` or any later one,
and the value returned is `63 * k`, the number of bytes of the chunks already
processed, a multiple of 63 below `count`. -/
theorem leddy_write_result (umem : Nat → Option Nat) (count k : Nat)
    (hok : ∀ i, i < 63 * k → i < count → (umem i).isSome = true) :
    (count ≤ 63 * k → ∃ inv, leddy_write umem count = some ((count : Int), inv)) ∧
    (63 * k < count →
      copy_from_user umem (63 * k)
        (if count - 63 * k < WRITE_BUF_SIZE then count - 63 * k else WRITE_BUF_SIZE) =
        none →
      leddy_write umem count =
        some (((63 * k : Nat) : Int),
          (List.range k).map
            (fun q => (user_bytes umem (63 * q) 63 ++ [0], 63 * q == 0)))) := by
  constructor
  · intro hall
    exact leddy_write_loop_total umem count (fun i hi => hok i (by omega) hi) count 0
      (by omega)
  · intro hlt hfail
    have h := leddy_write_loop_fault umem count k 0 count (by omega)
      (by simpa using hlt) (fun i _ h2 => hok i (by simpa using h2) (by
        simp only [Nat.zero_add] at h2
        omega))
      (by simpa using hfail)
    simp only [Nat.zero_add, Nat.mul_zero] at h
    rw [leddy_write, h, List.range_eq_range']

/-- C9 on a write of 130 bytes of which only the first 100 are readable: the
first chunk is transmitted, the copy of the second chunk fails, and 63 is
returned; on a write of the 100 readable bytes, 100 is returned. -/
theorem leddy_write_result_witness :
    leddy_write sample_umem 130 =
      some (((63 * 1 : Nat) : Int),
        (List.range 1).map
          (fun q => (user_bytes sample_umem (63 * q) 63 ++ [0], 63 * q == 0))) ∧
    (∃ inv, leddy_write sample_umem 100 = some ((100 : Int), inv)) :=
  ⟨(leddy_write_result sample_umem 130 1 (by decide)).2 (by decide) (by decide),
    (leddy_write_result sample_umem 100 2 (by decide)).1 (by decide)⟩

/-- C10: `set_interval` fails with `-EINVAL` and leaves `interval` as it was
exactly when the text does not parse or the parsed value is below 100;
otherwise, whatever the size of the value, it sets `interval` to the value and
returns `count`; 99 is rejected and 100 accepted. -/
theorem set_interval_floor (interval count : Nat) (parsed : Option Nat) :
    (set_interval interval parsed count = (-EINVAL, interval) ↔
      (parsed = none ∨ ∃ v, parsed = some v ∧ v < 100)) ∧
    (∀ v, parsed = some v → 100 ≤ v →
      set_interval interval parsed count = ((count : Int), v)) ∧
    set_interval interval (some 99) count = (-EINVAL, interval) ∧
    set_interval interval (some 100) count = ((count : Int), 100) := by
  refine ⟨?_, ?_, by simp [set_interval], by simp [set_interval]⟩
  · cases parsed with
    | none => simp [set_interval]
    | some v =>
      by_cases hv : v < 100
      · simp [set_interval, hv]
      · have hc : ((count : Int), v) ≠ (-EINVAL, interval) := by
          intro h
          have h1 := congrArg Prod.fst h
          simp only [EINVAL] at h1
          omega
        simp [set_interval, hv, hc]
  · intro v hp hv
    subst hp
    simp [set_interval, Nat.not_lt.mpr hv]

/-! ## GPIO registers -/

/-- C11: for every pin `p` in `0 .. 53`, every mode value `fsel` and every
content of the 32-bit registers, `set_gpio_function(p, fsel)` changes only the
function-select register `p / 10`, and in it only the three bits from bit
`(p % 10) * 3` on, which become the low three bits of `fsel`; every other bit
of that register and every other register is unchanged.  It makes one read
and one write, both of that register. -/
theorem set_gpio_function_isolation (regs : Reg → Nat) (p fsel : Nat) (hp : p ≤ 53)
    (hregs : ∀ r, regs r < 2 ^ 32) :
    p / 10 < 6 ∧
    (∀ r, r ≠ Reg.GPFSEL (p / 10) → (set_gpio_function regs p fsel).1 r = regs r) ∧
    (∀ i, ¬ ((p % 10) * 3 ≤ i ∧ i < (p % 10) * 3 + 3) →
      ((set_gpio_function regs p fsel).1 (Reg.GPFSEL (p / 10))).testBit i =
        (regs (Reg.GPFSEL (p / 10))).testBit i) ∧
    (∀ j, j < 3 →
      ((set_gpio_function regs p fsel).1 (Reg.GPFSEL (p / 10))).testBit ((p % 10) * 3 + j) =
        fsel.testBit j) ∧
    (set_gpio_function regs p fsel).2 =
      [Event.readl (Reg.GPFSEL (p / 10)),
       Event.writel ((set_gpio_function regs p fsel).1 (Reg.GPFSEL (p / 10)))
         (Reg.GPFSEL (p / 10))] := by
  have h7 : ∀ k, Nat.testBit 7 k = decide (k < 3) := fun k =>
    Nat.testBit_two_pow_sub_one 3 k
  have hF : ∀ k, Nat.testBit 0xFFFFFFFF k = decide (k < 32) := fun k =>
    Nat.testBit_two_pow_sub_one 32 k
  have hold : regs (Reg.GPFSEL (p / 10)) % 2 ^ 32 = regs (Reg.GPFSEL (p / 10)) :=
    Nat.mod_eq_of_lt (hregs _)
  have hoff : (p % 10) * 3 ≤ 27 := by omega
  have hhigh : ∀ i, 32 ≤ i → (regs (Reg.GPFSEL (p / 10))).testBit i = false := by
    intro i hi
    exact Nat.testBit_lt_two_pow
      (Nat.lt_of_lt_of_le (hregs _) (Nat.pow_le_pow_right (by decide) hi))
  refine ⟨by omega, ?_, ?_, ?_, ?_⟩
  · intro r hr
    simp [set_gpio_function, store, hr]
  · intro i hi
    simp only [set_gpio_function, store, if_true, hold, Nat.testBit_or, Nat.testBit_and,
      Nat.testBit_xor, Nat.testBit_mod_two_pow, Nat.testBit_shiftLeft, h7, hF]
    by_cases h32 : i < 32
    · by_cases hlo : (p % 10) * 3 ≤ i
      · have : ¬ (i - (p % 10) * 3 < 3) := by omega
        simp [h32, hlo, this]
      · simp [h32, hlo]
    · have := hhigh i (by omega)
      simp [h32, this]
  · intro j hj
    have h32 : (p % 10) * 3 + j < 32 := by omega
    simp only [set_gpio_function, store, if_true, hold, Nat.testBit_or, Nat.testBit_and,
      Nat.testBit_xor, Nat.testBit_mod_two_pow, Nat.testBit_shiftLeft, h7, hF]
    simp [h32, hj]
  · simp [set_gpio_function, store]

/-- C11 at pin 18 with mode `GPIO_FSEL_OUTPUT` on registers that are all ones:
only bits 24 to 26 of register 1 change, from `111` to `001`. -/
theorem set_gpio_function_isolation_witness :
    (18 / 10 < 6 ∧
      (∀ r, r ≠ Reg.GPFSEL (18 / 10) →
          (set_gpio_function sample_regs 18 GPIO_FSEL_OUTPUT).1 r = sample_regs r) ∧
      (∀ i, ¬ ((18 % 10) * 3 ≤ i ∧ i < (18 % 10) * 3 + 3) →
        ((set_gpio_function sample_regs 18 GPIO_FSEL_OUTPUT).1
            (Reg.GPFSEL (18 / 10))).testBit i =
          (sample_regs (Reg.GPFSEL (18 / 10))).testBit i) ∧
      (∀ j, j < 3 →
        ((set_gpio_function sample_regs 18 GPIO_FSEL_OUTPUT).1
            (Reg.GPFSEL (18 / 10))).testBit ((18 % 10) * 3 + j) =
          GPIO_FSEL_OUTPUT.testBit j) ∧
      (set_gpio_function sample_regs 18 GPIO_FSEL_OUTPUT).2 =
        [Event.readl (Reg.GPFSEL (18 / 10)),
         Event.writel ((set_gpio_function sample_regs 18 GPIO_FSEL_OUTPUT).1
           (Reg.GPFSEL (18 / 10))) (Reg.GPFSEL (18 / 10))]) ∧
    (set_gpio_function sample_regs 18 GPIO_FSEL_OUTPUT).1 (Reg.GPFSEL 1) = 0xF9FFFFFF ∧
    (set_gpio_function sample_regs 18 GPIO_FSEL_OUTPUT).1 (Reg.GPFSEL 0) = 0xFFFFFFFF :=
  ⟨set_gpio_function_isolation sample_regs 18 GPIO_FSEL_OUTPUT (by decide)
      (fun _ => by simp [sample_regs]),
    by decide, by decide⟩

/-- C12: for every pin `p` in `0 .. 53`, `set_gpio_value(p, true)` makes exactly
one access, a write of the mask whose only set bit is bit `p % 32` to a set
register, and `set_gpio_value(p, false)` makes exactly one access, a write of
the same mask to a clear register; there is no read and no access to a
function-select register. -/
theorem set_gpio_value_single_write (p : Nat) :
    set_gpio_value p true = [Event.writel (2 ^ (p % 32)) (Reg.GPSET 0)] ∧
    set_gpio_value p false = [Event.writel (2 ^ (p % 32)) (Reg.GPCLR 0)] ∧
    (∀ i, (2 ^ (p % 32)).testBit i = decide (i = p % 32)) := by
  have hlt : 2 ^ (p % 32) < 2 ^ 32 :=
    Nat.pow_lt_pow_right (by decide) (Nat.mod_lt p (by decide))
  have hm : (1 <<< (p % 32)) % 2 ^ 32 = 2 ^ (p % 32) := by
    rw [Nat.shiftLeft_eq, Nat.one_mul]
    exact Nat.mod_eq_of_lt hlt
  refine ⟨by simp only [set_gpio_value, if_true, hm],
    by simp only [set_gpio_value, hm, Bool.false_eq_true, if_false], ?_⟩
  intro i
  rw [Nat.testBit_two_pow]
  by_cases h : i = p % 32
  · simp [h]
  · simp [h, Ne.symm h]

/-- C20, at the failing input: `set_gpio_value(32, v)` writes bit 0 of element 0
of the set or clear array, which is the write of `set_gpio_value(0, v)`; the
element index is 0 for every pin, so each pin `32 + n` with `n ≤ 21` makes the
write of pin `n`. -/
theorem set_gpio_value_bank_collision :
    set_gpio_value 32 true = [Event.writel 1 (Reg.GPSET 0)] ∧
    set_gpio_value 32 true = set_gpio_value 0 true ∧
    set_gpio_value 32 false = set_gpio_value 0 false ∧
    32 / 32 = 1 ∧
    (∀ n, n ≤ 21 → ∀ v, set_gpio_value (32 + n) v = set_gpio_value n v) := by
  refine ⟨by decide, by decide, by decide, by decide, ?_⟩
  intro n _ v
  have : (32 + n) % 32 = n % 32 := by omega
  simp [set_gpio_value, this]

/-! ## Code lengths and the range of the unit -/

/-- C13, refuted at the digit `0`: its code `-----` has five symbols, not at
most four; so has the code of every digit. -/
theorem digit_code_has_five_symbols :
    is_letter_or_digit 48 = true ∧ get_code 48 = some "-----" ∧
    ((get_code 48).getD "").length = 5 ∧
    ¬ (1 ≤ ((get_code 48).getD "").length ∧ ((get_code 48).getD "").length ≤ 4) ∧
    (∀ d, d < 10 → ((get_code (48 + d)).getD "").length = 5) := by
  decide

/-- C13, amended: for every letter and every digit `c`, `get_code c` is a code
made of dots and dashes only; it has between one and four symbols when `c` is
a letter and exactly five symbols when `c` is a digit. -/
theorem code_lengths (c : Nat) (h : is_letter_or_digit c = true) :
    ∃ morse, get_code c = some morse ∧
      (∀ s ∈ morse.data, s = '.' ∨ s = '-') ∧
      (¬ (48 ≤ c ∧ c ≤ 57) → 1 ≤ morse.length ∧ morse.length ≤ 4) ∧
      ((48 ≤ c ∧ c ≤ 57) → morse.length = 5) := by
  have hb : c < 123 := by
    simp only [is_letter_or_digit, Bool.or_eq_true, Bool.and_eq_true, decide_eq_true_eq] at h
    omega
  have all : ∀ c, c < 123 → is_letter_or_digit c = true →
      (get_code c).isSome = true ∧
      (∀ s ∈ ((get_code c).getD "").data, s = '.' ∨ s = '-') ∧
      (¬ (48 ≤ c ∧ c ≤ 57) →
        1 ≤ ((get_code c).getD "").length ∧ ((get_code c).getD "").length ≤ 4) ∧
      ((48 ≤ c ∧ c ≤ 57) → ((get_code c).getD "").length = 5) := by decide
  obtain ⟨h1, h2, h3, h4⟩ := all c hb h
  obtain ⟨morse, hm⟩ := Option.isSome_iff_exists.mp h1
  rw [hm] at h2 h3 h4
  exact ⟨morse, hm, h2, h3, h4⟩

/-- C13, amended, at the letter `A` (two symbols). -/
theorem code_lengths_witness :
    ∃ morse, get_code 65 = some morse ∧
      (∀ s ∈ morse.data, s = '.' ∨ s = '-') ∧
      (¬ (48 ≤ 65 ∧ 65 ≤ 57) → 1 ≤ morse.length ∧ morse.length ≤ 4) ∧
      ((48 ≤ 65 ∧ 65 ≤ 57) → morse.length = 5) :=
  code_lengths 65 (by decide)

/-- C17, refuted at the unit `2 ^ 31`: `set_interval` accepts it, and then the
completion pause `2 * interval` wraps to a sleep of 0 ms, the dash holds the
pin for `2 ^ 31` ms instead of `3 * 2 ^ 31`, and the continuation pause is
`2 ^ 31` ms instead of `5 * 2 ^ 31`. -/
theorem unit_products_wrap :
    100 ≤ 2147483648 ∧ 2147483648 ≤ 2 ^ 32 - 1 ∧
    set_interval 300 (some 2147483648) 11 = (11, 2147483648) ∧
    morse_pause 2147483648 2 = [Event.msleep 0] ∧
    morse_pause 2147483648 2 ≠ [Event.msleep (2 * 2147483648)] ∧
    morse_pause 2147483648 5 = [Event.msleep 2147483648] ∧
    morse_pause 2147483648 5 ≠ [Event.msleep (5 * 2147483648)] ∧
    morse_long_signal 2147483648 18 =
      set_gpio_value 18 true ++ [Event.msleep 2147483648] ++ set_gpio_value 18 false ∧
    morse_long_signal 2147483648 18 ≠
      set_gpio_value 18 true ++ [Event.msleep (3 * 2147483648)] ++
        set_gpio_value 18 false := by
  decide

/-- C17, amended: for every unit `u` that `set_interval` accepts and for which
`5 * u < 2 ^ 32` (that is `100 ≤ u ≤ 858993459`), a dash holds the pin high for
exactly `3 * u`, the completion pause is exactly `2 * u` and the continuation
pause is exactly `5 * u`; in general a pause of `k` units is a sleep of
`k * u` exactly when `k * u < 2 ^ 32`. -/
theorem unit_products_exact (u gpio count : Nat) (h100 : 100 ≤ u)
    (h5 : 5 * u < 2 ^ 32) :
    (∀ interval, set_interval interval (some u) count = ((count : Int), u)) ∧
    morse_long_signal u gpio =
      set_gpio_value gpio true ++ [Event.msleep (3 * u)] ++ set_gpio_value gpio false ∧
    morse_pause u 2 = [Event.msleep (2 * u)] ∧
    morse_pause u 5 = [Event.msleep (5 * u)] ∧
    (5 * u < 2 ^ 32 ↔ u ≤ 858993459) ∧
    (∀ k v, morse_pause v k = [Event.msleep (k * v)] ↔ k * v < 2 ^ 32) := by
  refine ⟨?_, ?_, ?_, ?_, by omega, ?_⟩
  · intro interval
    simp [set_interval, Nat.not_lt.mpr h100]
  · simp only [morse_long_signal]
    rw [Nat.mod_eq_of_lt (by omega)]
  · simp only [morse_pause]
    rw [Nat.mod_eq_of_lt (by omega)]
  · simp only [morse_pause]
    rw [Nat.mod_eq_of_lt h5]
  · intro k v
    simp only [morse_pause, List.cons.injEq, Event.msleep.injEq, and_true]
    constructor
    · intro h
      rw [← h]
      exact Nat.mod_lt _ (by decide)
    · intro h
      exact Nat.mod_eq_of_lt h

/-- C17, amended, at the default unit of 300 ms. -/
theorem unit_products_exact_witness :
    (∀ interval, set_interval interval (some 300) 4 = (((4 : Nat) : Int), 300)) ∧
    morse_long_signal 300 18 =
      set_gpio_value 18 true ++ [Event.msleep (3 * 300)] ++ set_gpio_value 18 false ∧
    morse_pause 300 2 = [Event.msleep (2 * 300)] ∧
    morse_pause 300 5 = [Event.msleep (5 * 300)] ∧
    (5 * 300 < 2 ^ 32 ↔ 300 ≤ 858993459) ∧
    (∀ k v, morse_pause v k = [Event.msleep (k * v)] ↔ k * v < 2 ^ 32) :=
  unit_products_exact 300 18 4 (by decide) (by decide)

/-! ## Chunking -/

theorem user_bytes_append (umem : Nat → Option Nat) (src a b : Nat) :
    user_bytes umem src (a + b) = user_bytes umem src a ++ user_bytes umem (src + a) b := by
  simp only [user_bytes, ← List.map_append]
  congr 1
  rw [Nat.add_comm a b]
  exact (List.range'_append_1 src a b).symm

/-- The loop of `leddy_write` from chunk `j` when every byte is readable and
`n` chunks remain: it hands these chunks to `morse_code` and returns `count`. -/
theorem leddy_write_loop_pieces (umem : Nat → Option Nat) (count : Nat)
    (hok : ∀ i, i < count → (umem i).isSome = true) :
    ∀ (n j fuel : Nat), n ≤ fuel → (count - 63 * j + 62) / 63 = n →
      leddy_write_loop umem count fuel (63 * j) =
        some ((count : Int),
          (List.range' j n).map
            (fun q => (user_bytes umem (63 * q) (min 63 (count - 63 * q)) ++ [0], q == 0))) := by
  intro n
  induction n with
  | zero =>
    intro j fuel _ hn
    have hge : ¬ 63 * j < count := by omega
    cases fuel <;> simp [leddy_write_loop, hge]
  | succ n ih =>
    intro j fuel hf hn
    cases fuel with
    | zero => omega
    | succ f =>
      have hj : 63 * j < count := by omega
      have hsize : (if count - 63 * j < WRITE_BUF_SIZE then count - 63 * j
          else WRITE_BUF_SIZE) = min 63 (count - 63 * j) := by
        simp only [WRITE_BUF_SIZE]
        split_ifs <;> omega
      have hcopy := copy_from_user_ok umem (min 63 (count - 63 * j)) (63 * j)
        (fun i _ h2 => hok i (by omega))
      have hflag : (63 * j == 0) = (j == 0) := by
        cases j <;> simp
      by_cases hfull : 63 ≤ count - 63 * j
      · have hnext := ih (j + 1) f (by omega) (by omega)
        have harg : 63 * j + min 63 (count - 63 * j) = 63 * (j + 1) := by omega
        simp only [leddy_write_loop, hj, if_true, hsize, hcopy, hflag, harg, hnext,
          List.range'_succ, List.map_cons]
      · have hn0 : n = 0 := by omega
        have harg : 63 * j + min 63 (count - 63 * j) = count := by omega
        have hend : leddy_write_loop umem count f count = some ((count : Int), []) := by
          cases f <;> simp [leddy_write_loop]
        subst hn0
        simp only [leddy_write_loop, hj, if_true, hsize, hcopy, hflag, harg, hend,
          List.range'_succ, List.map_cons, List.range'_zero, List.map_nil]

theorem write_pieces_concat (umem : Nat → Option Nat) (count : Nat) :
    ∀ (n j : Nat), (count - 63 * j + 62) / 63 = n →
      (((List.range' j n).map
          (fun q => (user_bytes umem (63 * q) (min 63 (count - 63 * q)) ++ [0], q == 0))).map
        (fun p => p.1.dropLast)).flatten = user_bytes umem (63 * j) (count - 63 * j) := by
  intro n
  induction n with
  | zero =>
    intro j hn
    have : count - 63 * j = 0 := by omega
    simp [this, user_bytes]
  | succ n ih =>
    intro j hn
    have hrest := ih (j + 1) (by omega)
    have hsplit : count - 63 * j =
        min 63 (count - 63 * j) + (count - 63 * (j + 1)) := by omega
    have hsrc : 63 * j + min 63 (count - 63 * j) = 63 * (j + 1) ∨
        count - 63 * (j + 1) = 0 := by omega
    simp only [List.range'_succ, List.map_cons, List.flatten_cons, List.dropLast_concat, hrest]
    conv => rhs; rw [hsplit, user_bytes_append]
    rcases hsrc with h | h
    · rw [h]
    · simp [h, user_bytes]

/-- C14: for a write of `count` bytes in which every copy succeeds,
`leddy_write` ends and returns `count` after calling `morse_code` exactly
`⌈count / 63⌉` times, on consecutive pieces of the input, each followed by a
NUL, of 63 bytes each except the last, which has between 1 and 63 bytes; the
pieces put together are the whole input, the first piece is passed with
`start = true` and every later piece with `start = false`; a write of 0 bytes
makes no call. -/
theorem leddy_write_chunking (umem : Nat → Option Nat) (count : Nat)
    (hok : ∀ i, i < count → (umem i).isSome = true) :
    leddy_write umem count = some ((count : Int), write_pieces umem count) ∧
    (write_pieces umem count).length = (count + 62) / 63 ∧
    (63 * ((count + 62) / 63 - 1) < count ∨ count = 0) ∧
    count ≤ 63 * ((count + 62) / 63) ∧
    (∀ q, q + 1 < (count + 62) / 63 → min 63 (count - 63 * q) = 63) ∧
    (∀ q, q + 1 = (count + 62) / 63 →
      1 ≤ min 63 (count - 63 * q) ∧ min 63 (count - 63 * q) = count - 63 * q) ∧
    ((write_pieces umem count).map (fun p => p.1.dropLast)).flatten =
      user_bytes umem 0 count ∧
    (count = 0 → leddy_write umem count = some ((0 : Int), [])) := by
  have hloop := leddy_write_loop_pieces umem count hok ((count + 62) / 63) 0 count
    (by omega) (by simp)
  have hmain : leddy_write umem count = some ((count : Int), write_pieces umem count) := by
    simp only [Nat.mul_zero] at hloop
    rw [leddy_write, hloop, write_pieces, List.range_eq_range']
  refine ⟨hmain, by simp [write_pieces], by omega, by omega, fun q hq => by omega,
    fun q hq => by omega, ?_, ?_⟩
  · have := write_pieces_concat umem count ((count + 62) / 63) 0 (by simp)
    simpa [write_pieces, List.range_eq_range'] using this
  · intro h0
    subst h0
    rw [hmain]
    simp [write_pieces]

/-- C14 on a write of the 100 readable bytes of the sample memory: two calls,
on 63 bytes with `start = true` and on 37 bytes with `start = false`. -/
theorem leddy_write_chunking_witness :
    leddy_write sample_umem 100 = some ((100 : Int), write_pieces sample_umem 100) ∧
    write_pieces sample_umem 100 =
      [(List.replicate 63 65 ++ [0], true), (List.replicate 37 65 ++ [0], false)] :=
  ⟨(leddy_write_chunking sample_umem 100 (by decide)).1, by decide⟩

/-! ## The terminator -/

theorem peek_append_nul (x y : List Nat) : peek (x ++ 0 :: y) = peek x := by
  cases x <;> simp [peek]

/-- The inner loop stops at a NUL and leaves it under the cursor. -/
theorem morse_code_word_nul (gpio : Nat) (x y : List Nat) :
    morse_code_word gpio (x ++ 0 :: y) =
      ((morse_code_word gpio x).1, (morse_code_word gpio x).2 ++ 0 :: y) := by
  induction x with
  | nil => simp [morse_code_word]
  | cons c t ih =>
    rw [List.cons_append]
    by_cases hc : (c != 0 && isalnum c) = true
    · simp only [morse_code_word, hc, if_true, ih]
    · simp only [morse_code_word, hc, if_false, Bool.false_eq_true, List.cons_append]

/-- The skip loop stops at a NUL and leaves it under the cursor. -/
theorem morse_code_skip_nul (x y : List Nat) :
    morse_code_skip (x ++ 0 :: y) = morse_code_skip x ++ 0 :: y := by
  induction x with
  | nil => simp [morse_code_skip]
  | cons c t ih =>
    by_cases hc : c = 0
    · simp [morse_code_skip, hc]
    · by_cases ha : isalnum c = true
      · simp [morse_code_skip, hc, ha]
      · simp [morse_code_skip, hc, ha, ih]

/-- The outer loop does not depend on what follows a NUL. -/
theorem morse_code_loop_nul (gpio : Nat) (y : List Nat) :
    ∀ (fuel : Nat) (x : List Nat),
      morse_code_loop gpio fuel (x ++ 0 :: y) = morse_code_loop gpio fuel x := by
  intro fuel
  induction fuel with
  | zero => intro x; simp [morse_code_loop, peek_append_nul]
  | succ f ih =>
    intro x
    simp only [morse_code_loop, peek_append_nul, morse_code_word_nul, morse_code_skip_nul, ih]

/-- `morse_code` always ends: its choice of fuel is enough. -/
theorem morse_code_total (gpio : Nat) (buf : List Nat) (start : Bool) :
    ∃ calls, morse_code gpio buf start = some calls := by
  by_cases h : (!start && !isalnum (peek buf)) = true
  · obtain ⟨later, hl⟩ := morse_code_loop_total gpio buf.length (morse_code_skip buf)
      (morse_code_skip_length buf)
    exact ⟨Call.morse_pause 5 :: later, by simp only [morse_code, h, if_true, hl]⟩
  · obtain ⟨calls, hc⟩ := morse_code_loop_total gpio buf.length buf (Nat.le_refl _)
    exact ⟨calls, by simp only [morse_code, h, if_false, hc, Bool.false_eq_true]⟩

/-- `morse_code` does not depend on what follows a NUL: the bytes up to the NUL
give the same calls. -/
theorem morse_code_nul (gpio : Nat) (x y : List Nat) (start : Bool) :
    morse_code gpio (x ++ 0 :: y) start = morse_code gpio x start := by
  have hlen : x.length ≤ (x ++ 0 :: y).length := by simp
  have h1 : morse_code_loop gpio (x ++ 0 :: y).length x =
      morse_code_loop gpio x.length x := morse_code_loop_fuel gpio _ x hlen
  have hs := morse_code_skip_length x
  have h2 : morse_code_loop gpio (x ++ 0 :: y).length (morse_code_skip x) =
      morse_code_loop gpio x.length (morse_code_skip x) := by
    rw [morse_code_loop_fuel gpio _ (morse_code_skip x) (by omega),
      morse_code_loop_fuel gpio x.length (morse_code_skip x) hs]
  simp only [morse_code, peek_append_nul, morse_code_skip_nul, morse_code_loop_nul, h1, h2]

theorem morse_code_word_suffix (gpio : Nat) (x : List Nat) :
    (morse_code_word gpio x).2 <:+ x := by
  induction x with
  | nil => simp [morse_code_word]
  | cons c t ih =>
    by_cases hc : (c != 0 && isalnum c) = true
    · simp only [morse_code_word, hc, if_true]
      exact ih.trans (List.suffix_cons c t)
    · simp only [morse_code_word, hc, if_false, Bool.false_eq_true]
      exact List.suffix_refl _

theorem morse_code_skip_suffix (x : List Nat) : morse_code_skip x <:+ x := by
  induction x with
  | nil => simp [morse_code_skip]
  | cons c t ih =>
    by_cases hc : c = 0
    · simp [morse_code_skip, hc]
    · by_cases ha : isalnum c = true
      · simp only [morse_code_skip, bne_iff_ne, ne_eq, hc, not_false_eq_true, if_true, ha,
          Bool.not_true, Bool.false_eq_true, if_false]
        exact List.suffix_cons c t
      · simp only [morse_code_skip, bne_iff_ne, ne_eq, hc, not_false_eq_true, if_true, ha,
          Bool.not_false]
        exact ih.trans (List.suffix_cons c t)

/-- C15, refuted: the chunk `A`, NUL, `BC` stops at the NUL and transmits `A`
only, while `A BC` goes on after the space (unit 300 ms, pin 18, first
chunk). -/
theorem nul_is_not_a_space :
    morse_code 18 (cstr "A" ++ [0] ++ cstr "BC") true =
      some [Call.morse_char 18 65, Call.morse_pause 2] ∧
    morse_code 18 (cstr "A" ++ [0x20] ++ cstr "BC") true =
      some [Call.morse_char 18 65, Call.morse_pause 2, Call.morse_char 18 67,
        Call.morse_pause 2] ∧
    (cstr "A").length + (cstr "BC").length ≤ 62 ∧
    morse_code_trace 300 18 (cstr "A" ++ [0] ++ cstr "BC") true ≠
      morse_code_trace 300 18 (cstr "A" ++ [0x20] ++ cstr "BC") true := by
  decide

/-- C15, amended: a NUL byte in the written data ends the transmission of its
chunk: for all byte strings `x` and `y` and either value of `start`, the
transmission produced for `x ++ [0x00] ++ y` is the transmission produced for
`x` alone, and nothing of `y` is transmitted. -/
theorem nul_ends_the_chunk (interval gpio : Nat) (x y : List Nat) (start : Bool) :
    morse_code_trace interval gpio (x ++ [0] ++ y) start =
      morse_code_trace interval gpio x start ∧
    morse_code gpio (x ++ [0] ++ y) start = morse_code gpio x start := by
  have h : x ++ [0] ++ y = x ++ 0 :: y := by simp
  rw [h]
  exact ⟨by simp only [morse_code_trace, morse_code_nul], morse_code_nul gpio x y start⟩

/-- C19: on a buffer `x`, NUL, `y` and for either value of `start`,
`morse_code` terminates; every iteration of its outer loop moves the cursor
forward by at least one byte; the inner loop and the skip loops leave the
cursor on a byte of `x` or on the NUL that follows it, never after it; and the
calls made are those made on `x` followed by the NUL alone, so no byte of `y`
is read. -/
theorem morse_code_terminates (gpio : Nat) (x y : List Nat) (start : Bool) :
    (∃ calls, morse_code gpio (x ++ 0 :: y) start = some calls) ∧
    (∀ buf, peek buf ≠ 0 →
      (morse_code_skip (morse_code_word gpio buf).2).length < buf.length) ∧
    (∃ x1, (morse_code_word gpio (x ++ 0 :: y)).2 = x1 ++ 0 :: y ∧ x1 <:+ x) ∧
    (∃ x2, morse_code_skip (x ++ 0 :: y) = x2 ++ 0 :: y ∧ x2 <:+ x) ∧
    (∀ fuel, morse_code_loop gpio fuel (x ++ 0 :: y) = morse_code_loop gpio fuel x) ∧
    morse_code gpio (x ++ 0 :: y) start = morse_code gpio (x ++ [0]) start := by
  refine ⟨morse_code_total gpio _ start, fun buf h => morse_code_progress gpio buf h,
    ⟨(morse_code_word gpio x).2, by rw [morse_code_word_nul], morse_code_word_suffix gpio x⟩,
    ⟨morse_code_skip x, morse_code_skip_nul x y, morse_code_skip_suffix x⟩,
    fun fuel => morse_code_loop_nul gpio y fuel x, ?_⟩
  rw [morse_code_nul gpio x y start, morse_code_nul gpio x [] start]

/-! ## Runs of boundary bytes -/

/-- The inner loop on a text followed by something it stops on. -/
theorem morse_code_word_append_stop (gpio : Nat) (x z : List Nat)
    (hz : peek z = 0 ∨ isalnum (peek z) = false) :
    morse_code_word gpio (x ++ z) =
      ((morse_code_word gpio x).1, (morse_code_word gpio x).2 ++ z) := by
  induction x with
  | nil => simp [morse_code_word_stop gpio z hz, morse_code_word]
  | cons c t ih =>
    rw [List.cons_append]
    by_cases hc : (c != 0 && isalnum c) = true
    · simp only [morse_code_word, hc, if_true, ih]
    · simp only [morse_code_word, hc, if_false, Bool.false_eq_true, List.cons_append]

/-- The skip loop on a text in which it stops: what follows the text is left
untouched. -/
theorem morse_code_skip_append (x z : List Nat)
    (hx : ∃ c ∈ x, c = 0 ∨ isalnum c = true) :
    morse_code_skip (x ++ z) = morse_code_skip x ++ z := by
  induction x with
  | nil => simp at hx
  | cons c t ih =>
    by_cases hc : c = 0
    · simp [morse_code_skip, hc]
    · by_cases ha : isalnum c = true
      · simp [morse_code_skip, hc, ha]
      · have ht : ∃ d ∈ t, d = 0 ∨ isalnum d = true := by
          obtain ⟨d, hd, hprop⟩ := hx
          rcases List.mem_cons.mp hd with h | h
          · subst h
            rcases hprop with h0 | h1
            · exact absurd h0 hc
            · exact absurd h1 ha
          · exact ⟨d, h, hprop⟩
        simp [morse_code_skip, hc, ha, ih ht]

/-- A text is a run of boundary bytes, or the skip loop stops in it. -/
theorem boundary_run_or_stop (x : List Nat) :
    (∀ c ∈ x, c ≠ 0 ∧ isalnum c = false) ∨ (∃ c ∈ x, c = 0 ∨ isalnum c = true) := by
  by_cases h : ∀ c ∈ x, c ≠ 0 ∧ isalnum c = false
  · exact Or.inl h
  · right
    simp only [not_forall] at h
    obtain ⟨c, hc, hn⟩ := h
    refine ⟨c, hc, ?_⟩
    by_cases h0 : c = 0
    · exact Or.inl h0
    · right
      cases ha : isalnum c
      · exact absurd ⟨h0, ha⟩ hn
      · rfl

/-- The skip loop from in front of two runs of boundary bytes: it ends at the
same place after the runs, or in front of them at the same place. -/
theorem morse_code_skip_runs (x bs bs' y : List Nat)
    (hb : ∀ c ∈ bs, c ≠ 0 ∧ isalnum c = false)
    (hb' : ∀ c ∈ bs', c ≠ 0 ∧ isalnum c = false) :
    (morse_code_skip (x ++ (bs ++ y)) = morse_code_skip (x ++ (bs' ++ y))) ∨
    (morse_code_skip (x ++ (bs ++ y)) = morse_code_skip x ++ (bs ++ y) ∧
      morse_code_skip (x ++ (bs' ++ y)) = morse_code_skip x ++ (bs' ++ y)) := by
  rcases boundary_run_or_stop x with hall | hstop
  · left
    rw [morse_code_skip_run x _ hall, morse_code_skip_run x _ hall,
      morse_code_skip_run bs y hb, morse_code_skip_run bs' y hb']
  · right
    exact ⟨morse_code_skip_append x _ hstop, morse_code_skip_append x _ hstop⟩

/-- The outer loop does not tell one run of boundary bytes from another. -/
theorem morse_code_loop_boundary_runs (gpio : Nat) (bs bs' y : List Nat)
    (hne : bs ≠ []) (hb : ∀ c ∈ bs, c ≠ 0 ∧ isalnum c = false)
    (hne' : bs' ≠ []) (hb' : ∀ c ∈ bs', c ≠ 0 ∧ isalnum c = false) :
    ∀ (n : Nat) (x : List Nat), x.length ≤ n →
      morse_code_loop gpio (x ++ (bs ++ y)).length (x ++ (bs ++ y)) =
        morse_code_loop gpio (x ++ (bs' ++ y)).length (x ++ (bs' ++ y)) := by
  have step : ∀ x : List Nat,
      (∀ x2 : List Nat, x2.length < x.length →
        morse_code_loop gpio (x2 ++ (bs ++ y)).length (x2 ++ (bs ++ y)) =
          morse_code_loop gpio (x2 ++ (bs' ++ y)).length (x2 ++ (bs' ++ y))) →
      morse_code_loop gpio (x ++ (bs ++ y)).length (x ++ (bs ++ y)) =
        morse_code_loop gpio (x ++ (bs' ++ y)).length (x ++ (bs' ++ y)) := by
    intro x ih
    have hpb := peek_boundary_run bs y hne hb
    have hpb' := peek_boundary_run bs' y hne' hb'
    by_cases hzero : peek (x ++ (bs ++ y)) = 0
    · have hzero' : peek (x ++ (bs' ++ y)) = 0 := by
        cases x with
        | nil => exact absurd hzero hpb.1
        | cons c t => simpa [peek] using hzero
      rw [morse_code_loop_done gpio _ _ hzero, morse_code_loop_done gpio _ _ hzero']
    · have hzero' : peek (x ++ (bs' ++ y)) ≠ 0 := by
        cases x with
        | nil => exact hpb'.1
        | cons c t => simpa [peek] using hzero
      obtain ⟨later, hl, hs⟩ := morse_code_loop_step gpio _ (x ++ (bs ++ y)) hzero
        (Nat.le_refl _)
      obtain ⟨later', hl', hs'⟩ := morse_code_loop_step gpio _ (x ++ (bs' ++ y)) hzero'
        (Nat.le_refl _)
      have hprog := morse_code_progress gpio (x ++ (bs ++ y)) hzero
      rw [morse_code_word_append_stop gpio x (bs ++ y) (Or.inr hpb.2)] at hl hs hprog
      rw [morse_code_word_append_stop gpio x (bs' ++ y) (Or.inr hpb'.2)] at hl' hs'
      simp only at hl hs hl' hs' hprog
      have hlater : later = later' := by
        rcases morse_code_skip_runs (morse_code_word gpio x).2 bs bs' y hb hb' with h | ⟨h, h'⟩
        · rw [h, hl'] at hl
          exact (Option.some.inj hl).symm
        · rw [h] at hl hprog
          rw [h'] at hl'
          have hshort : (morse_code_skip (morse_code_word gpio x).2).length < x.length := by
            simp only [List.length_append] at hprog
            omega
          rw [ih _ hshort, hl'] at hl
          exact (Option.some.inj hl).symm
      rw [hs, hs', hlater]
  intro n
  induction n with
  | zero =>
    intro x hx
    exact step x (fun x2 h2 => by omega)
  | succ n ih =>
    intro x hx
    exact step x (fun x2 h2 => ih x2 (by omega))

/-- `morse_code` does not tell one run of boundary bytes from another. -/
theorem morse_code_boundary_runs (gpio : Nat) (x bs bs' y : List Nat) (start : Bool)
    (hne : bs ≠ []) (hb : ∀ c ∈ bs, c ≠ 0 ∧ isalnum c = false)
    (hne' : bs' ≠ []) (hb' : ∀ c ∈ bs', c ≠ 0 ∧ isalnum c = false) :
    morse_code gpio (x ++ (bs ++ y)) start = morse_code gpio (x ++ (bs' ++ y)) start := by
  have hloop := fun x => morse_code_loop_boundary_runs gpio bs bs' y hne hb hne' hb'
    x.length x (Nat.le_refl _)
  have hpeek : isalnum (peek (x ++ (bs ++ y))) = isalnum (peek (x ++ (bs' ++ y))) := by
    cases x with
    | nil =>
      rw [List.nil_append, List.nil_append, (peek_boundary_run bs y hne hb).2,
        (peek_boundary_run bs' y hne' hb').2]
    | cons c t => simp [peek]
  have hskip : morse_code_loop gpio (x ++ (bs ++ y)).length
        (morse_code_skip (x ++ (bs ++ y))) =
      morse_code_loop gpio (x ++ (bs' ++ y)).length
        (morse_code_skip (x ++ (bs' ++ y))) := by
    rw [morse_code_loop_fuel gpio _ _ (morse_code_skip_length (x ++ (bs ++ y))),
      morse_code_loop_fuel gpio _ _ (morse_code_skip_length (x ++ (bs' ++ y)))]
    rcases morse_code_skip_runs x bs bs' y hb hb' with h | ⟨h, h'⟩
    · rw [h]
    · rw [h, h']
      exact hloop (morse_code_skip x)
  simp only [morse_code, hpeek, hskip, hloop x]

/-- C16: for every chunk and either value of `start`, an extra non-NUL
boundary byte put right before or right after a boundary byte of the chunk
does not change the trace of `morse_code`; more generally a run of one or more
boundary bytes gives the trace of a single boundary byte in its place. -/
theorem boundary_runs_count_once (interval gpio : Nat) (x y : List Nat) (b b' : Nat)
    (start : Bool) (hb : b ≠ 0 ∧ isalnum b = false) (hb' : b' ≠ 0 ∧ isalnum b' = false) :
    morse_code_trace interval gpio (x ++ b' :: b :: y) start =
      morse_code_trace interval gpio (x ++ b :: y) start ∧
    morse_code_trace interval gpio (x ++ b :: b' :: y) start =
      morse_code_trace interval gpio (x ++ b :: y) start ∧
    (∀ bs : List Nat, bs ≠ [] → (∀ c ∈ bs, c ≠ 0 ∧ isalnum c = false) →
      morse_code_trace interval gpio (x ++ (bs ++ y)) start =
        morse_code_trace interval gpio (x ++ b :: y) start) := by
  have hone : ∀ c ∈ [b], c ≠ 0 ∧ isalnum c = false := by
    intro c hc
    rw [List.mem_singleton.mp hc]
    exact hb
  have key : ∀ bs : List Nat, bs ≠ [] → (∀ c ∈ bs, c ≠ 0 ∧ isalnum c = false) →
      morse_code_trace interval gpio (x ++ (bs ++ y)) start =
        morse_code_trace interval gpio (x ++ b :: y) start := by
    intro bs hne hbs
    have := morse_code_boundary_runs gpio x bs [b] y start hne hbs (by simp) hone
    simp only [morse_code_trace, this, List.singleton_append]
  refine ⟨?_, ?_, key⟩
  · have := key [b', b] (by simp) (by
      intro c hc
      rcases List.mem_cons.mp hc with h | h
      · rw [h]; exact hb'
      · exact hone c h)
    simpa using this
  · have := key [b, b'] (by simp) (by
      intro c hc
      rcases List.mem_cons.mp hc with h | h
      · rw [h]; exact hb
      · rw [List.mem_singleton.mp h]; exact hb')
    simpa using this

/-- C16 at `HI THERE`: a comma before the space, or after it, changes
nothing. -/
theorem boundary_runs_count_once_witness :
    morse_code_trace 300 18 (cstr "HI" ++ 44 :: 32 :: cstr "THERE") true =
      morse_code_trace 300 18 (cstr "HI" ++ 32 :: cstr "THERE") true ∧
    morse_code_trace 300 18 (cstr "HI" ++ 32 :: 44 :: cstr "THERE") true =
      morse_code_trace 300 18 (cstr "HI" ++ 32 :: cstr "THERE") true ∧
    (∀ bs : List Nat, bs ≠ [] → (∀ c ∈ bs, c ≠ 0 ∧ isalnum c = false) →
      morse_code_trace 300 18 (cstr "HI" ++ (bs ++ cstr "THERE")) true =
        morse_code_trace 300 18 (cstr "HI" ++ 32 :: cstr "THERE") true) :=
  boundary_runs_count_once 300 18 (cstr "HI") (cstr "THERE") 32 44 true (by decide)
    (by decide)

/-! ## The LED is never left on -/

theorem led_step_none (gpio : Nat) (t : List Event) :
    t.foldl (led_step gpio) none = none := by
  induction t with
  | nil => rfl
  | cons e t ih => simpa [List.foldl_cons, led_step] using ih

/-- A trace that keeps the discipline and ends with the pin low can be followed
by another one. -/
theorem led_run_append (gpio : Nat) (a b : List Event)
    (ha : led_run gpio Phase.low a = some Phase.low) :
    led_run gpio Phase.low (a ++ b) = led_run gpio Phase.low b := by
  simp only [led_run, List.foldl_append] at ha ⊢
  rw [ha]

theorem led_run_symbol (interval gpio : Nat) (s : Char) :
    led_run gpio Phase.low (morse_symbol interval gpio s) = some Phase.low := by
  obtain ⟨ms, hms⟩ := morse_symbol_shape interval gpio s
  rw [hms]
  simp [led_run, led_step, set_gpio_value, morse_pause]

theorem led_run_symbols (interval gpio : Nat) (syms : List Char) :
    led_run gpio Phase.low ((syms.map (morse_symbol interval gpio)).flatten) =
      some Phase.low := by
  induction syms with
  | nil => rfl
  | cons s rest ih =>
    rw [List.map_cons, List.flatten_cons,
      led_run_append gpio _ _ (led_run_symbol interval gpio s)]
    exact ih

theorem led_run_pause (interval gpio times : Nat) :
    led_run gpio Phase.low (morse_pause interval times) = some Phase.low := by
  simp [led_run, led_step, morse_pause]

theorem led_run_char (interval gpio c : Nat) (t : List Event)
    (ht : morse_char interval gpio c = some t) :
    led_run gpio Phase.low t = some Phase.low := by
  unfold morse_char at ht
  cases hm : get_code c with
  | none => simp [hm] at ht
  | some morse =>
    simp only [hm, Option.some.injEq] at ht
    rw [← ht, led_run_append gpio _ _ (led_run_symbols interval gpio morse.data)]
    exact led_run_pause interval gpio 2

/-- The calls of the inner loop are `morse_char` calls on the pin `gpio`. -/
theorem morse_code_word_pin (gpio : Nat) (buf : List Nat) :
    ∀ call ∈ (morse_code_word gpio buf).1, ∃ c, call = Call.morse_char gpio c := by
  induction buf with
  | nil => simp [morse_code_word]
  | cons c t ih =>
    by_cases hc : (c != 0 && isalnum c) = true
    · simp only [morse_code_word, hc, if_true]
      intro call hcall
      rcases List.mem_cons.mp hcall with h | h
      · exact ⟨c, h⟩
      · exact ih call h
    · simp [morse_code_word, hc]

/-- The calls of the outer loop are pauses and `morse_char` calls on the pin
`gpio`. -/
theorem morse_code_loop_pin (gpio : Nat) :
    ∀ (fuel : Nat) (buf : List Nat) (calls : List Call),
      morse_code_loop gpio fuel buf = some calls →
      ∀ call ∈ calls, (∃ c, call = Call.morse_char gpio c) ∨
        (∃ k, call = Call.morse_pause k) := by
  intro fuel
  induction fuel with
  | zero =>
    intro buf calls h
    by_cases hp : peek buf = 0
    · simp [morse_code_loop, hp] at h
      subst h
      simp
    · simp [morse_code_loop, hp] at h
  | succ f ih =>
    intro buf calls h
    by_cases hp : peek buf = 0
    · simp [morse_code_loop, hp] at h
      subst h
      simp
    · rw [morse_code_loop] at h
      simp only [hp, bne_iff_ne, ne_eq, not_false_eq_true, if_true] at h
      cases hl : morse_code_loop gpio f (morse_code_skip (morse_code_word gpio buf).2) with
      | none => simp [hl] at h
      | some later =>
        simp only [hl, Option.some.injEq] at h
        subst h
        intro call hcall
        rcases List.mem_append.mp hcall with h1 | h2
        · exact Or.inl (morse_code_word_pin gpio buf call h1)
        · rcases List.mem_cons.mp h2 with h3 | h4
          · exact Or.inr ⟨2, h3⟩
          · exact ih _ later hl call h4

/-- The calls of `morse_code` are pauses and `morse_char` calls on its pin. -/
theorem morse_code_pin (gpio : Nat) (buf : List Nat) (start : Bool) (calls : List Call)
    (h : morse_code gpio buf start = some calls) :
    ∀ call ∈ calls, (∃ c, call = Call.morse_char gpio c) ∨
      (∃ k, call = Call.morse_pause k) := by
  unfold morse_code at h
  split_ifs at h with hc
  · cases hl : morse_code_loop gpio buf.length (morse_code_skip buf) with
    | none => simp [hl] at h
    | some later =>
      simp only [hl, Option.some.injEq] at h
      subst h
      intro call hcall
      rcases List.mem_cons.mp hcall with h1 | h2
      · exact Or.inr ⟨5, h1⟩
      · exact morse_code_loop_pin gpio _ _ later hl call h2
  · exact morse_code_loop_pin gpio _ _ calls h

/-- Running pauses and `morse_char` calls on one pin keeps the discipline. -/
theorem led_run_calls (interval gpio : Nat) :
    ∀ (calls : List Call) (t : List Event),
      (∀ call ∈ calls, (∃ c, call = Call.morse_char gpio c) ∨
        (∃ k, call = Call.morse_pause k)) →
      run_calls interval calls = some t →
      led_run gpio Phase.low t = some Phase.low := by
  intro calls
  induction calls with
  | nil =>
    intro t _ ht
    simp only [run_calls, Option.some.injEq] at ht
    subst ht
    rfl
  | cons call rest ih =>
    intro t hall ht
    simp only [run_calls] at ht
    cases h1 : call.run interval with
    | none => simp [h1, seq_trace] at ht
    | some t1 =>
      cases h2 : run_calls interval rest with
      | none => simp [h1, h2, seq_trace] at ht
      | some t2 =>
        simp only [h1, h2, seq_trace, Option.some.injEq] at ht
        subst ht
        have hrest := ih t2 (fun c hc => hall c (List.mem_cons_of_mem call hc)) h2
        have hfirst : led_run gpio Phase.low t1 = some Phase.low := by
          rcases hall call (List.mem_cons_self call rest) with ⟨c, hc⟩ | ⟨k, hk⟩
          · subst hc
            exact led_run_char interval gpio c t1 h1
          · subst hk
            simp only [Call.run, Option.some.injEq] at h1
            rw [← h1]
            exact led_run_pause interval gpio k
        rw [led_run_append gpio t1 t2 hfirst]
        exact hrest

/-- In a trace that keeps the discipline and ends with the pin low, a pin-high
write is followed by one sleep and then by the pin-low write. -/
theorem led_run_after_high (gpio : Nat) (pre post : List Event)
    (h : led_run gpio Phase.low (pre ++ set_gpio_value gpio true ++ post) =
      some Phase.low) :
    ∃ ms rest, post = Event.msleep ms :: (set_gpio_value gpio false ++ rest) := by
  simp only [led_run, List.foldl_append] at h
  have hhigh : (set_gpio_value gpio true).foldl (led_step gpio)
      (pre.foldl (led_step gpio) (some Phase.low)) = some Phase.high ∨
      (set_gpio_value gpio true).foldl (led_step gpio)
      (pre.foldl (led_step gpio) (some Phase.low)) = none := by
    cases hs : pre.foldl (led_step gpio) (some Phase.low) with
    | none => right; simp [set_gpio_value, led_step]
    | some p => cases p <;> simp [set_gpio_value, led_step]
  rcases hhigh with hh | hh
  · rw [hh] at h
    cases post with
    | nil => simp at h
    | cons e1 post1 =>
      cases e1 with
      | readl r => simp [led_step, led_step_none] at h
      | writel v r => simp [led_step, led_step_none] at h
      | msleep ms =>
        cases post1 with
        | nil => simp [led_step] at h
        | cons e2 post2 =>
          cases e2 with
          | readl r => simp [led_step, led_step_none] at h
          | msleep m2 => simp [led_step, led_step_none] at h
          | writel v r =>
            by_cases hlow : [Event.writel v r] = set_gpio_value gpio false
            · exact ⟨ms, post2, by rw [← hlow]; rfl⟩
            · simp [led_step, hlow, led_step_none] at h
  · rw [hh, led_step_none] at h
    simp at h

/-- C18: in the trace of `morse_code`, for every chunk and either value of
`start`, the events follow the discipline of `led_step` from a low pin to a low
pin: every pin-high write is immediately followed by exactly one sleep and then
the pin-low write, so no two pin-high writes occur without a pin-low between
them, every other sleep happens with the pin low, and a pin that is low when
`morse_code` is entered is low when it returns. -/
theorem led_never_left_on (interval gpio : Nat) (buf : List Nat) (start : Bool)
    (t : List Event) (ht : morse_code_trace interval gpio buf start = some t) :
    led_run gpio Phase.low t = some Phase.low ∧
    (∀ pre post, t = pre ++ set_gpio_value gpio true ++ post →
      ∃ ms rest, post = Event.msleep ms :: (set_gpio_value gpio false ++ rest)) := by
  have hrun : led_run gpio Phase.low t = some Phase.low := by
    unfold morse_code_trace at ht
    cases hc : morse_code gpio buf start with
    | none => simp [hc] at ht
    | some calls =>
      simp only [hc] at ht
      exact led_run_calls interval gpio calls t (morse_code_pin gpio buf start calls hc) ht
  refine ⟨hrun, ?_⟩
  intro pre post hsplit
  rw [hsplit] at hrun
  exact led_run_after_high gpio pre post hrun

/-- C18 on the chunk `E` (one dot) with a unit of 300 ms on pin 18. -/
theorem led_never_left_on_witness :
    morse_code_trace 300 18 (cstr "E") true =
      some [Event.writel 262144 (Reg.GPSET 0), Event.msleep 300,
        Event.writel 262144 (Reg.GPCLR 0), Event.msleep 300, Event.msleep 600,
        Event.msleep 600] ∧
    led_run 18 Phase.low [Event.writel 262144 (Reg.GPSET 0), Event.msleep 300,
        Event.writel 262144 (Reg.GPCLR 0), Event.msleep 300, Event.msleep 600,
        Event.msleep 600] = some Phase.low :=
  ⟨by decide, (led_never_left_on 300 18 (cstr "E") true _ (by decide)).1⟩

end Leddy
